import Mathlib

/-!
Verification development for the factor layer of a max-mixture pose-graph
tracker (source: `include/factor.h`).  Scalars are modelled by `ℚ` (exact
rationals standing in for IEEE doubles), 3-vectors by `Fin 3 → ℚ`, and the
external pose/linear-algebra primitives (gtsam / Eigen) by explicit rational
constructions.  Transcendental library routines (`log`, `sqrt`) that the code
calls are threaded through as explicit function parameters, so every
definition stays executable and the theorems quantify over the numeric
routines where their exact values are irrelevant.
-/

namespace LioSegmot

open Matrix

abbrev Vec3 : Type := Fin 3 → ℚ

abbrev Mat3 : Type := Matrix (Fin 3) (Fin 3) ℚ

/-- Explicit cofactor-expansion determinant of a 3×3 rational matrix
(the fixed-size closed form Eigen uses for small matrices). -/
def det3 (M : Mat3) : ℚ :=
  M 0 0 * (M 1 1 * M 2 2 - M 1 2 * M 2 1)
    - M 0 1 * (M 1 0 * M 2 2 - M 1 2 * M 2 0)
    + M 0 2 * (M 1 0 * M 2 1 - M 1 1 * M 2 0)

/-- Explicit adjugate (transposed cofactor matrix) of a 3×3 rational matrix. -/
def adj3 (M : Mat3) : Mat3 :=
  Matrix.of
    ![![M 1 1 * M 2 2 - M 1 2 * M 2 1,
        M 0 2 * M 2 1 - M 0 1 * M 2 2,
        M 0 1 * M 1 2 - M 0 2 * M 1 1],
      ![M 1 2 * M 2 0 - M 1 0 * M 2 2,
        M 0 0 * M 2 2 - M 0 2 * M 2 0,
        M 0 2 * M 1 0 - M 0 0 * M 1 2],
      ![M 1 0 * M 2 1 - M 1 1 * M 2 0,
        M 0 1 * M 2 0 - M 0 0 * M 2 1,
        M 0 0 * M 1 1 - M 0 1 * M 1 0]]

/-- Exact rational inverse of a 3×3 matrix (adjugate over determinant;
total: returns the zero matrix on singular input, as rational division by
zero is zero). -/
def inv3 (M : Mat3) : Mat3 := (det3 M)⁻¹ • adj3 M

/-- Proper-rotation predicate: orthogonal with unit determinant. -/
def IsRot (R : Mat3) : Prop := Rᵀ * R = 1 ∧ det3 R = 1

instance (R : Mat3) : Decidable (IsRot R) := by unfold IsRot; infer_instance

/-- Rigid 3D pose: rotation matrix plus translation, mirroring the external
`gtsam::Pose3` abstraction the factors consume (spec section 6). -/
structure Pose3 where
  R : Mat3
  t : Vec3

/-- A pose is valid when its rotation block is a proper rotation. -/
def Pose3.IsValid (p : Pose3) : Prop := IsRot p.R

instance (p : Pose3) : Decidable p.IsValid := by unfold Pose3.IsValid; infer_instance

/-- Pose composition (group operation of SE(3)). -/
def Pose3.comp (a b : Pose3) : Pose3 := ⟨a.R * b.R, a.R.mulVec b.t + a.t⟩

/-- Pose inverse (valid on orthogonal rotations, where the inverse rotation
is the transpose). -/
def Pose3.inverse (a : Pose3) : Pose3 := ⟨a.Rᵀ, -(a.Rᵀ.mulVec a.t)⟩

/-- The identity pose. -/
def Pose3.identity : Pose3 := ⟨1, 0⟩

/-- Element of the tangent space of SE(3): angular part and linear part. -/
structure Twist where
  ang : Vec3
  lin : Vec3

instance : Zero Twist := ⟨⟨0, 0⟩⟩

/-- Vee map extracting the vector of a (skew-symmetric) matrix. -/
def vee (M : Mat3) : Vec3 := ![M 2 1, M 0 2, M 1 0]

/-- Hat map producing the skew-symmetric matrix of a 3-vector. -/
def hat (v : Vec3) : Mat3 :=
  Matrix.of ![![0, -v 2, v 1], ![v 2, 0, -v 0], ![-v 1, v 0, 0]]

/-- Cayley-chart rotation logarithm: the matrix `(R - 1) * (R + 1)⁻¹`. -/
def cayley (R : Mat3) : Mat3 := (R - 1) * inv3 (R + 1)

/-- Modelled from the spec: the pose log-map abstraction of section 6 (the
tangent-space logarithm provided by the external pose library, whose
implementation is not part of this repository).  A rational chart is used:
the rotation part is the vee of the Cayley transform (exact at the identity
and vanishing there only, away from the degenerate 180-degree set), the
translation part is the raw translation. -/
def Pose3.logmap (p : Pose3) : Twist := ⟨vee (cayley p.R), p.t⟩

/-- Squared Euclidean norm of a 3-vector. -/
def normSq3 (v : Vec3) : ℚ := v 0 * v 0 + v 1 * v 1 + v 2 * v 2

/-- Squared norm of a twist. -/
def Twist.normSq (w : Twist) : ℚ := normSq3 w.ang + normSq3 w.lin

/-- Squared geodesic distance between two poses: squared norm of the
log-map of the relative transform. -/
def geoDistSq (a b : Pose3) : ℚ := (Pose3.logmap (a.inverse.comp b)).normSq

/-- Componentwise whitening of a 3-vector by a vector of noise sigmas. -/
def whitenV (sigma v : Vec3) : Vec3 := fun i => v i / sigma i

/-- Whitening of a twist by rotational/translational sigma vectors. -/
def whitenT (sr st : Vec3) (w : Twist) : Twist := ⟨whitenV sr w.ang, whitenV st w.lin⟩

/-- The detection region message consumed at construction time (external
`jsk_recognition_msgs::BoundingBox`): pose estimate of the sensed region plus
an opaque label.  Only the position enters the Gaussian model. -/
structure BoundingBox where
  position : Vec3
  label : ℤ

/-- One Gaussian hypothesis explaining a detection (class `Detection` of
`include/factor.h`): mean, per-axis variance vector, covariance, information
and square-root-information matrices, diagonal noise sigmas, weight, and the
originating bounding box. -/
structure Detection where
  mu : Vec3
  sigmaVec : Vec3
  sigmaMat : Mat3
  info : Mat3
  sqrtInfo : Mat3
  diagonalSigmas : Vec3
  w : ℚ
  box : BoundingBox

/-- Modelled from the spec: `Detection::Detection(box, sigma, w)` with a
per-axis variance vector (implementation not in `src/`).  Derives
covariance = diag(sigma), information = diag(sigma⁻¹), square-root
information = diag(sqrt(sigma⁻¹)) and the diagonal noise sigmas
sqrt(sigma); the numeric square-root routine `sqrtFn` (libm) is passed
explicitly. -/
def Detection.mkVec (sqrtFn : ℚ → ℚ) (box : BoundingBox) (sigma : Vec3)
    (w : ℚ) : Detection :=
  { mu := box.position
    sigmaVec := sigma
    sigmaMat := Matrix.diagonal sigma
    info := Matrix.diagonal fun i => (sigma i)⁻¹
    sqrtInfo := Matrix.diagonal fun i => sqrtFn ((sigma i)⁻¹)
    diagonalSigmas := fun i => sqrtFn (sigma i)
    w := w
    box := box }

/-- Modelled from the spec: `Detection::Detection(box, sigma, w)` with an
isotropic scalar variance (implementation not in `src/`): identical to the
vector constructor on the constant variance vector. -/
def Detection.mkScalar (sqrtFn : ℚ → ℚ) (box : BoundingBox) (sigma : ℚ)
    (w : ℚ) : Detection :=
  Detection.mkVec sqrtFn box (fun _ => sigma) w

/-- Modelled from the spec: `Detection::error(x, gamma)` (implementation not
in `src/`): a negative-log-likelihood-style scalar combining half the squared
Mahalanobis distance of `x` from the mean under the stored information
matrix, the log-determinant normalization of the covariance, the weight
penalty, and the `gamma` floor term.  The numeric logarithm routine `nlog`
(libm) is passed explicitly. -/
def Detection.error (nlog : ℚ → ℚ) (d : Detection) (x : Vec3) (gamma : ℚ) : ℚ :=
  (1 / 2) * dotProduct (x - d.mu) (d.info.mulVec (x - d.mu))
    + (1 / 2) * nlog (det3 d.sigmaMat) - nlog d.w + gamma

/-- Variable assignment abstraction (external `gtsam::Values`, spec
section 6): association list from variable identifier to pose estimate. -/
def Values : Type := List (ℕ × Pose3)

/-- Lookup of a variable identifier in an assignment. -/
def Values.at? (c : Values) (k : ℕ) : Option Pose3 :=
  (c.find? fun kv => kv.1 == k).map fun kv => kv.2

/-- Error outcomes surfaced by the factor layer: a missing variable
identifier (gtsam's out-of-range lookup failure) or a rejected
configuration at construction. -/
inductive FactorError where
  | keyOutOfRange : FactorError
  | emptyHypothesisList : FactorError
deriving DecidableEq

/-- Coupling mode of the detection factor (`DetectionFactor::Mode`,
`include/factor.h` lines 79-82). -/
inductive Mode where
  | tightlyCoupled : Mode
  | looselyCoupled : Mode
deriving DecidableEq

/-- The max-mixture detection factor (class `DetectionFactor` of
`include/factor.h`): the two variable identifiers, the ordered hypothesis
list, the parallel whitening-model and measurement arrays, the gamma floor
and the coupling mode. -/
structure DetectionFactor where
  detectionKey : ℕ
  robotPoseKey : ℕ
  detections : List Detection
  diagonals : List Vec3
  zs : List Vec3
  gamma : ℚ
  mode : Mode

/-- Modelled from the spec: the `DetectionFactor` constructor
(implementation not in `src/`).  Fails fast on an empty hypothesis list and
derives the parallel whitening-model and measurement arrays from the
hypotheses, so parallel-array length mismatches cannot arise. -/
def DetectionFactor.create (detections : List Detection)
    (detectionKey robotPoseKey : ℕ) (mode : Mode) :
    Except FactorError DetectionFactor :=
  if detections.isEmpty then
    .error .emptyHypothesisList
  else
    .ok
      { detectionKey := detectionKey
        robotPoseKey := robotPoseKey
        detections := detections
        diagonals := detections.map fun d => d.diagonalSigmas
        zs := detections.map fun d => d.mu
        gamma := 0
        mode := mode }

/-- `DetectionFactor::getDetectionValue`: assignment lookup of the
object-pose variable, failing with an out-of-range error when absent. -/
def DetectionFactor.getDetectionValue (f : DetectionFactor) (c : Values) :
    Except FactorError Pose3 :=
  match c.at? f.detectionKey with
  | some p => .ok p
  | none => .error .keyOutOfRange

/-- `DetectionFactor::getRobotPoseValue`: assignment lookup of the
observer-pose variable, failing with an out-of-range error when absent. -/
def DetectionFactor.getRobotPoseValue (f : DetectionFactor) (c : Values) :
    Except FactorError Pose3 :=
  match c.at? f.robotPoseKey with
  | some p => .ok p
  | none => .error .keyOutOfRange

/-- Linear scan for the minimum of a list of errors, keeping the earliest
index on ties (running best is replaced only on a strictly smaller error). -/
def minIndexAux : ℚ → ℕ → ℕ → List ℚ → ℕ × ℚ
  | b, bi, _, [] => (bi, b)
  | b, bi, i, e :: rest =>
      if e < b then minIndexAux e i (i + 1) rest
      else minIndexAux b bi (i + 1) rest

/-- Index and value of the minimum of a list of errors (earliest index on
ties); `(0, 0)` on the empty list, which the factor invariant excludes. -/
def minIndex : List ℚ → ℕ × ℚ
  | [] => (0, 0)
  | e :: rest => minIndexAux e 0 1 rest

/-- The per-hypothesis error list of a factor at observer-relative
measurement `x`. -/
def DetectionFactor.hypothesisErrors (nlog : ℚ → ℚ) (f : DetectionFactor)
    (x : Vec3) : List ℚ :=
  f.detections.map fun det => det.error nlog x f.gamma

/-- Modelled from the spec:
`DetectionFactor::getDetectionIndexAndError(const Pose3 &)` (implementation
not in `src/`): evaluate every hypothesis at the translation of the given
relative pose and return the argmin index with its error, earliest index on
ties. -/
def DetectionFactor.getDetectionIndexAndErrorPose (nlog : ℚ → ℚ)
    (f : DetectionFactor) (d : Pose3) : ℕ × ℚ :=
  minIndex (f.hypothesisErrors nlog d.t)

/-- The observer-relative pose of the object implied by the current
estimates: the observer pose inverse composed with the object pose. -/
def relativePose (robot obj : Pose3) : Pose3 := robot.inverse.comp obj

/-- Modelled from the spec:
`DetectionFactor::getDetectionIndexAndError(const Values &)` (implementation
not in `src/`): look up both variables, form the observer-relative pose and
defer to the pose overload; fails out-of-range when a variable is absent. -/
def DetectionFactor.getDetectionIndexAndError (nlog : ℚ → ℚ)
    (f : DetectionFactor) (c : Values) : Except FactorError (ℕ × ℚ) := do
  let obj ← f.getDetectionValue c
  let robot ← f.getRobotPoseValue c
  pure (f.getDetectionIndexAndErrorPose nlog (relativePose robot obj))

/-- Modelled from the spec: `DetectionFactor::error(const Values &)`
(implementation not in `src/`): the minimum hypothesis error at the current
assignment (max-mixture semantics); fails out-of-range when a variable is
absent. -/
def DetectionFactor.error (nlog : ℚ → ℚ) (f : DetectionFactor) (c : Values) :
    Except FactorError ℚ := do
  let r ← f.getDetectionIndexAndError nlog c
  pure r.2

/-- Row-wise whitening of a Jacobian block by a vector of noise sigmas. -/
def whitenRows (sigma : Vec3) (M : Mat3) : Mat3 :=
  Matrix.of fun i j => M i j / sigma i

/-- A 3×6 Jacobian block of a pose variable, split into its rotational and
translational 3×3 column blocks. -/
structure JBlock where
  rot : Mat3
  trans : Mat3

/-- The zero Jacobian block. -/
def JBlock.zero : JBlock := ⟨0, 0⟩

/-- The generic linear-factor abstraction handed to the solver (spec
section 6): one whitened Jacobian block per variable identifier plus the
whitened right-hand side. -/
structure LinearizedFactor where
  objKey : ℕ
  robKey : ℕ
  objBlock : JBlock
  robBlock : JBlock
  rhs : Vec3
  noiseSigmas : Vec3

/-- Modelled from the spec: the linearization computation of
`DetectionFactor::linearize` at given observer/object pose estimates
(implementation not in `src/`).  Re-runs hypothesis selection at the current
estimates and builds one linear factor from only the selected hypothesis's
whitening model and measurement.  In loosely-coupled mode the observer-pose
block is left zero (the observer pose acts as a frozen constant); in
tightly-coupled mode both blocks carry the analytic derivative of the
observer-relative measurement. -/
def DetectionFactor.linearizePure (nlog : ℚ → ℚ) (f : DetectionFactor)
    (robot obj : Pose3) : LinearizedFactor :=
  let rel := relativePose robot obj
  let sel := f.getDetectionIndexAndErrorPose nlog rel
  let sigma := f.diagonals.getD sel.1 fun _ => 1
  let z := f.zs.getD sel.1 0
  let x := rel.t
  let objBlock : JBlock := ⟨0, whitenRows sigma (robot.Rᵀ * obj.R)⟩
  let robBlock : JBlock :=
    match f.mode with
    | .looselyCoupled => JBlock.zero
    | .tightlyCoupled => ⟨whitenRows sigma (hat x), whitenRows sigma (-1)⟩
  { objKey := f.detectionKey
    robKey := f.robotPoseKey
    objBlock := objBlock
    robBlock := robBlock
    rhs := whitenV sigma (z - x)
    noiseSigmas := sigma }

/-- Modelled from the spec: `DetectionFactor::linearize` (implementation not
in `src/`): look up both variables (failing out-of-range when one is absent)
and perform the linearization at the current estimates. -/
def DetectionFactor.linearize (nlog : ℚ → ℚ) (f : DetectionFactor)
    (c : Values) : Except FactorError LinearizedFactor := do
  let obj ← f.getDetectionValue c
  let robot ← f.getRobotPoseValue c
  pure (f.linearizePure nlog robot obj)

/-- The constant-velocity prior (class `ConstantVelocityFactor` of
`include/factor.h`): a between-factor over two pose variables with a stored
measured relative transform and a noise model (rotational and translational
sigma vectors). -/
structure ConstantVelocityFactor where
  key1 : ℕ
  key2 : ℕ
  measured : Pose3
  noiseRotSigmas : Vec3
  noiseTransSigmas : Vec3

/-- `ConstantVelocityFactor` constructor (`include/factor.h` lines 156-160):
delegates to the between-factor base with the identity transform as the
measured relative pose. -/
def ConstantVelocityFactor.create (k1 k2 : ℕ) (sr st : Vec3) :
    ConstantVelocityFactor :=
  { key1 := k1
    key2 := k2
    measured := Pose3.identity
    noiseRotSigmas := sr
    noiseTransSigmas := st }

/-- Modelled from the spec: the between-factor residual supplied by the
external library (spec section 4.3): the log-map of the discrepancy between
the measured relative transform and the relative transform of the two pose
estimates, whitened by the supplied noise model. -/
def ConstantVelocityFactor.residual (f : ConstantVelocityFactor)
    (p1 p2 : Pose3) : Twist :=
  whitenT f.noiseRotSigmas f.noiseTransSigmas
    (Pose3.logmap (f.measured.inverse.comp (p1.inverse.comp p2)))

/-- Squared magnitude of the constant-velocity residual. -/
def ConstantVelocityFactor.residualNormSq (f : ConstantVelocityFactor)
    (p1 p2 : Pose3) : ℚ :=
  (f.residual p1 p2).normSq

/-- The three-variable stability factor (class `StablePoseFactor` of
`include/factor.h`): previous-pose, velocity and next-pose variable
identifiers plus a noise model. -/
structure StablePoseFactor where
  previousPoseKey : ℕ
  velocityKey : ℕ
  nextPoseKey : ℕ
  noiseRotSigmas : Vec3
  noiseTransSigmas : Vec3

/-- Modelled from the spec: the residual of
`StablePoseFactor::evaluateError` (implementation not in `src/`): the
whitened log-map discrepancy between the predicted next pose (previous pose
composed with velocity) and the actual next pose. -/
def StablePoseFactor.residual (f : StablePoseFactor)
    (previousPose velocity nextPose : Pose3) : Twist :=
  whitenT f.noiseRotSigmas f.noiseTransSigmas
    (Pose3.logmap ((previousPose.comp velocity).inverse.comp nextPose))

/-- Cross product of two 3-vectors. -/
def cross3 (x y : Vec3) : Vec3 :=
  ![x 1 * y 2 - x 2 * y 1, x 2 * y 0 - x 0 * y 2, x 0 * y 1 - x 1 * y 0]

/-- Cayley map from a (skew) matrix to a rotation: `(1 + A) * (1 - A)⁻¹`,
the inverse of the chart used by the pose log-map. -/
def cay (A : Mat3) : Mat3 := (1 + A) * inv3 (1 - A)

/-- A full 3×6 Jacobian block of one pose input of the stability factor,
split into its four 3×3 sub-blocks: derivative of the angular and of the
linear residual with respect to the rotational and the translational
perturbation directions of that input. -/
structure JFull where
  angRot : Mat3
  angTrans : Mat3
  linRot : Mat3
  linTrans : Mat3

/-- The relative-rotation Gibbs vector of a pose triple: the unwhitened
angular residual of the stability factor. -/
def gibbsRel (previousPose velocity nextPose : Pose3) : Vec3 :=
  vee (cayley ((previousPose.comp velocity).Rᵀ * nextPose.R))

/-- The unwhitened linear residual of the stability factor: the
predicted-frame displacement from the predicted to the actual next pose. -/
def linRel (previousPose velocity nextPose : Pose3) : Vec3 :=
  (previousPose.comp velocity).Rᵀ.mulVec nextPose.t
    - (previousPose.comp velocity).Rᵀ.mulVec (previousPose.comp velocity).t

/-- The previous-frame displacement from the previous to the next pose. -/
def uRel (previousPose nextPose : Pose3) : Vec3 :=
  previousPose.Rᵀ.mulVec nextPose.t - previousPose.Rᵀ.mulVec previousPose.t

/-- Modelled from the spec: the three analytic Jacobian blocks of
`StablePoseFactor::evaluateError` (implementation not in `src/`): for each
of the three pose inputs, the derivative of the whitened (angular, linear)
residual with respect to the rotational and translational perturbation
directions of that input, in the rational chart of the pose log-map
(`gibbsRel` is the unwhitened angular residual, `linRel` the unwhitened
linear residual, `uRel` the previous-frame displacement). -/
def StablePoseFactor.jacobians (f : StablePoseFactor)
    (previousPose velocity nextPose : Pose3) : JFull × JFull × JFull :=
  (⟨whitenRows f.noiseRotSigmas
        (-((1 - hat (gibbsRel previousPose velocity nextPose)
              + vecMulVec (gibbsRel previousPose velocity nextPose)
                  (gibbsRel previousPose velocity nextPose)) * velocity.Rᵀ)),
      0,
      whitenRows f.noiseTransSigmas
        ((2 : ℚ) • (velocity.Rᵀ * hat (uRel previousPose nextPose))),
      whitenRows f.noiseTransSigmas (-velocity.Rᵀ)⟩,
   ⟨whitenRows f.noiseRotSigmas
        (-(1 - hat (gibbsRel previousPose velocity nextPose)
            + vecMulVec (gibbsRel previousPose velocity nextPose)
                (gibbsRel previousPose velocity nextPose))),
      0,
      whitenRows f.noiseTransSigmas
        ((2 : ℚ) • hat (linRel previousPose velocity nextPose)),
      whitenRows f.noiseTransSigmas (-1)⟩,
   ⟨whitenRows f.noiseRotSigmas
        (1 + hat (gibbsRel previousPose velocity nextPose)
          + vecMulVec (gibbsRel previousPose velocity nextPose)
              (gibbsRel previousPose velocity nextPose)),
      0,
      0,
      whitenRows f.noiseTransSigmas
        ((previousPose.comp velocity).Rᵀ * nextPose.R)⟩)

/-- Modelled from the spec: `StablePoseFactor::evaluateError` with the
optional Jacobian outputs requested: the whitened residual together with the
three analytic Jacobian blocks. -/
def StablePoseFactor.evaluateError (f : StablePoseFactor)
    (previousPose velocity nextPose : Pose3) :
    Twist × (JFull × JFull × JFull) :=
  (f.residual previousPose velocity nextPose,
   f.jacobians previousPose velocity nextPose)

/-- Right-translation perturbation of a pose (pure-translation tangent
direction in the local coordinates of the pose). -/
def Pose3.retract (p : Pose3) (delta : Vec3) : Pose3 := p.comp ⟨1, delta⟩

/-- Right-rotation perturbation of a pose: composition with the rotation of
Gibbs parameter `a` in the chart of the pose log-map (pure-rotation tangent
direction in the local coordinates of the pose). -/
def Pose3.retractRot (p : Pose3) (a : Vec3) : Pose3 := p.comp ⟨cay (hat a), 0⟩

/-- Componentwise approximate equality of 3-vectors within a tolerance. -/
def vecNear (a b : Vec3) (tol : ℚ) : Bool :=
  decide (∀ i, |a i - b i| ≤ tol)

/-- Entrywise approximate equality of 3×3 matrices within a tolerance. -/
def matNear (A B : Mat3) (tol : ℚ) : Bool :=
  decide (∀ i j, |A i j - B i j| ≤ tol)

/-- Approximate equality of poses within a tolerance. -/
def poseNear (p q : Pose3) (tol : ℚ) : Bool :=
  matNear p.R q.R tol && vecNear p.t q.t tol

/-- Modelled from the spec: the base-class comparison reached by
`ConstantVelocityFactor::equals` (external
`gtsam::BetweenFactor::equals`): identical keys, measured transform within
tolerance, noise sigmas within tolerance. -/
def cvBaseEquals (a b : ConstantVelocityFactor) (tol : ℚ) : Bool :=
  (a.key1 == b.key1) && (a.key2 == b.key2)
    && poseNear a.measured b.measured tol
    && vecNear a.noiseRotSigmas b.noiseRotSigmas tol
    && vecNear a.noiseTransSigmas b.noiseTransSigmas tol

/-- Modelled from the spec: the base-class comparison reached by
`StablePoseFactor::equals` (external `gtsam::NoiseModelFactor3::equals`):
identical keys and noise sigmas within tolerance. -/
def spBaseEquals (a b : StablePoseFactor) (tol : ℚ) : Bool :=
  (a.previousPoseKey == b.previousPoseKey)
    && (a.velocityKey == b.velocityKey)
    && (a.nextPoseKey == b.nextPoseKey)
    && vecNear a.noiseRotSigmas b.noiseRotSigmas tol
    && vecNear a.noiseTransSigmas b.noiseTransSigmas tol

/-- The closed set of concrete nonlinear-factor kinds of this layer, over
which the `equals` runtime-type test dispatches. -/
inductive AnyFactor where
  | constantVelocity (f : ConstantVelocityFactor) : AnyFactor
  | stablePose (f : StablePoseFactor) : AnyFactor
  | detection (f : DetectionFactor) : AnyFactor

/-- `ConstantVelocityFactor::equals` (`include/factor.h` lines 178-181):
the dynamic cast to the concrete kind yields null (false) on any other
factor kind, and the base comparison otherwise. -/
def ConstantVelocityFactor.equals (a : ConstantVelocityFactor)
    (other : AnyFactor) (tol : ℚ) : Bool :=
  match other with
  | .constantVelocity b => cvBaseEquals a b tol
  | _ => false

/-- `StablePoseFactor::equals` (`include/factor.h` lines 214-217): the
dynamic cast to the concrete kind yields null (false) on any other factor
kind, and the base comparison otherwise. -/
def StablePoseFactor.equals (a : StablePoseFactor)
    (other : AnyFactor) (tol : ℚ) : Bool :=
  match other with
  | .stablePose b => spBaseEquals a b tol
  | _ => false

/-- Trivial logarithm routine used by concrete evaluations (the factor-level
properties hold for every numeric logarithm). -/
def nlog0 : ℚ → ℚ := fun _ => 0

/-- Exact square-root table on the rationals used by concrete evaluations
(standing in for an exact numeric sqrt on those inputs). -/
def sqrtq : ℚ → ℚ := fun q =>
  if q = 0 then 0
  else if q = 1 then 1
  else if q = 4 then 2
  else if q = 1 / 4 then 1 / 2
  else if q = 9 then 3
  else if q = 1 / 9 then 1 / 3
  else 0

/-- Concrete bounding box at the origin. -/
def box0 : BoundingBox := ⟨![0, 0, 0], 0⟩

/-- Concrete bounding box at unit x. -/
def box1 : BoundingBox := ⟨![1, 0, 0], 1⟩

/-- Concrete unit-variance hypothesis at the origin. -/
def det0 : Detection := Detection.mkVec sqrtq box0 ![1, 1, 1] 1

/-- Concrete unit-variance hypothesis at unit x. -/
def det1 : Detection := Detection.mkVec sqrtq box1 ![1, 1, 1] 1

/-- Concrete detection factor with two identical hypotheses
(tightly-coupled). -/
def fac2 : DetectionFactor :=
  { detectionKey := 0
    robotPoseKey := 1
    detections := [det0, det0]
    diagonals := [![1, 1, 1], ![1, 1, 1]]
    zs := [![0, 0, 0], ![0, 0, 0]]
    gamma := 0
    mode := Mode.tightlyCoupled }

/-- The loosely-coupled variant of the concrete detection factor. -/
def fac2L : DetectionFactor := { fac2 with mode := Mode.looselyCoupled }

/-- Concrete assignment holding both variables of `fac2` at the identity. -/
def vals0 : Values := [(0, Pose3.identity), (1, Pose3.identity)]

/-- Concrete assignment missing the observer-pose variable of `fac2`. -/
def vals1 : Values := [(0, Pose3.identity)]

/-- Concrete isotropic constant-velocity factor. -/
def cvIso : ConstantVelocityFactor :=
  ConstantVelocityFactor.create 3 4 ![1, 1, 1] ![1, 1, 1]

/-- Concrete anisotropic constant-velocity factor (translation sigma 1/2 on
the x axis). -/
def cvAniso : ConstantVelocityFactor :=
  ConstantVelocityFactor.create 3 4 ![1, 1, 1] ![1 / 2, 1, 1]

/-- Concrete pure-translation pose at unit x. -/
def poseX : Pose3 := ⟨1, ![1, 0, 0]⟩

/-- Concrete pure-translation pose at 3/2 on the y axis. -/
def poseY : Pose3 := ⟨1, ![0, 3 / 2, 0]⟩

/-- Concrete stable-pose factor with unit noise. -/
def sp0 : StablePoseFactor := ⟨0, 1, 2, ![1, 1, 1], ![1, 1, 1]⟩

/-- Concrete previous pose for the stability fixture. -/
def prevP : Pose3 := ⟨1, ![1, 2, 3]⟩

/-- Concrete velocity pose for the stability fixture. -/
def velP : Pose3 := ⟨1, ![1, 0, 0]⟩

theorem det3_eq_det (M : Mat3) : det3 M = M.det := by
  rw [Matrix.det_fin_three]; unfold det3; ring

theorem det3_mul (A B : Mat3) : det3 (A * B) = det3 A * det3 B := by
  simp [det3_eq_det, Matrix.det_mul]

theorem det3_transpose (M : Mat3) : det3 Mᵀ = det3 M := by
  simp [det3_eq_det, Matrix.det_transpose]

theorem det3_one : det3 (1 : Mat3) = 1 := by
  simp [det3_eq_det]

theorem det3_zero : det3 (0 : Mat3) = 0 := by
  simp [det3_eq_det]

theorem mul_adj3 (M : Mat3) : M * adj3 M = det3 M • (1 : Mat3) := by
  ext i j
  fin_cases i <;> fin_cases j <;>
    simp [adj3, det3, Matrix.mul_apply, Fin.sum_univ_three, Matrix.one_apply] <;>
    ring

theorem adj3_mul (M : Mat3) : adj3 M * M = det3 M • (1 : Mat3) := by
  ext i j
  fin_cases i <;> fin_cases j <;>
    simp [adj3, det3, Matrix.mul_apply, Fin.sum_univ_three, Matrix.one_apply] <;>
    ring

theorem adj3_transpose (M : Mat3) : adj3 Mᵀ = (adj3 M)ᵀ := by
  ext i j
  fin_cases i <;> fin_cases j <;> simp [adj3, Matrix.transpose_apply] <;> ring

theorem mul_inv3 (M : Mat3) (h : det3 M ≠ 0) : M * inv3 M = 1 := by
  unfold inv3
  rw [Matrix.mul_smul, mul_adj3, smul_smul, inv_mul_cancel₀ h, one_smul]

theorem inv3_mul (M : Mat3) (h : det3 M ≠ 0) : inv3 M * M = 1 := by
  unfold inv3
  rw [Matrix.smul_mul, adj3_mul, smul_smul, inv_mul_cancel₀ h, one_smul]

theorem inv3_transpose (M : Mat3) : inv3 Mᵀ = (inv3 M)ᵀ := by
  unfold inv3
  rw [det3_transpose, adj3_transpose, Matrix.transpose_smul]

/-- Uniqueness of a left inverse against `inv3` on a nonsingular matrix. -/
theorem left_inv_eq_inv3 (M X : Mat3) (h : det3 M ≠ 0) (hX : X * M = 1) :
    X = inv3 M := by
  calc X = X * (M * inv3 M) := by rw [mul_inv3 M h, mul_one]
    _ = (X * M) * inv3 M := by rw [Matrix.mul_assoc]
    _ = inv3 M := by rw [hX, Matrix.one_mul]

theorem IsRot.mul_transpose {R : Mat3} (h : IsRot R) : R * Rᵀ = 1 :=
  (Matrix.mul_eq_one_comm).mp h.1

theorem IsRot.one : IsRot (1 : Mat3) := by
  constructor
  · simp
  · exact det3_one

theorem IsRot.transpose {R : Mat3} (h : IsRot R) : IsRot Rᵀ := by
  refine ⟨?_, ?_⟩
  · rw [Matrix.transpose_transpose]; exact h.mul_transpose
  · rw [det3_transpose]; exact h.2

theorem IsRot.mul {R S : Mat3} (hR : IsRot R) (hS : IsRot S) : IsRot (R * S) := by
  refine ⟨?_, ?_⟩
  · rw [Matrix.transpose_mul]
    calc Sᵀ * Rᵀ * (R * S) = Sᵀ * (Rᵀ * R) * S := by
          rw [Matrix.mul_assoc, Matrix.mul_assoc, Matrix.mul_assoc]
      _ = Sᵀ * S := by rw [hR.1, Matrix.mul_one]
      _ = 1 := hS.1
  · rw [det3_mul, hR.2, hS.2, one_mul]

theorem pose_eq_iff {a b : Pose3} : a = b ↔ a.R = b.R ∧ a.t = b.t := by
  constructor
  · intro h; subst h; exact ⟨rfl, rfl⟩
  · rintro ⟨h1, h2⟩; cases a; cases b; simp_all

theorem Pose3.inverse_comp_self {p : Pose3} (h : p.IsValid) :
    p.inverse.comp p = Pose3.identity := by
  unfold Pose3.inverse Pose3.comp Pose3.identity
  rw [pose_eq_iff]
  refine ⟨h.1, ?_⟩
  simp

theorem Pose3.comp_valid {a b : Pose3} (ha : a.IsValid) (hb : b.IsValid) :
    (a.comp b).IsValid := ha.mul hb

theorem Pose3.inverse_valid {a : Pose3} (ha : a.IsValid) :
    a.inverse.IsValid := ha.transpose

theorem twist_eq_iff {a b : Twist} : a = b ↔ a.ang = b.ang ∧ a.lin = b.lin := by
  constructor
  · intro h; subst h; exact ⟨rfl, rfl⟩
  · rintro ⟨h1, h2⟩; cases a; cases b; simp_all

theorem Twist.zero_def : (0 : Twist) = ⟨0, 0⟩ := rfl

theorem whitenV_zero (sigma : Vec3) : whitenV sigma 0 = 0 := by
  funext i; simp [whitenV]

theorem whitenV_eq_zero_iff {sigma v : Vec3} (h : ∀ i, sigma i ≠ 0) :
    whitenV sigma v = 0 ↔ v = 0 := by
  constructor
  · intro hw; funext i
    have := congrFun hw i
    simpa [whitenV, div_eq_zero_iff, h i] using this
  · intro hv; rw [hv]; exact whitenV_zero sigma

theorem cayley_one : cayley (1 : Mat3) = 0 := by
  unfold cayley; rw [sub_self, Matrix.zero_mul]

theorem vee_zero : vee (0 : Mat3) = 0 := by
  funext i; fin_cases i <;> simp [vee]

theorem logmap_identity : Pose3.identity.logmap = 0 := by
  unfold Pose3.logmap Pose3.identity
  rw [twist_eq_iff]
  constructor
  · simp only [cayley_one, vee_zero]; rfl
  · rfl

theorem sub_one_mul_add_one_comm (R : Mat3) :
    (R - 1) * (R + 1) = (R + 1) * (R - 1) := by noncomm_ring

theorem inv3_comm_of_comm {M X : Mat3} (h : det3 M ≠ 0) (hc : X * M = M * X) :
    inv3 M * X = X * inv3 M := by
  calc inv3 M * X = inv3 M * X * (M * inv3 M) := by
        rw [mul_inv3 M h, Matrix.mul_one]
    _ = inv3 M * (X * M) * inv3 M := by simp only [Matrix.mul_assoc]
    _ = inv3 M * (M * X) * inv3 M := by rw [hc]
    _ = (inv3 M * M) * (X * inv3 M) := by simp only [Matrix.mul_assoc]
    _ = X * inv3 M := by rw [inv3_mul M h, Matrix.one_mul]

/-- The transpose of `R + 1` for orthogonal `R` has inverse `inv3 (R + 1) * R`. -/
theorem inv3_transpose_add_one {R : Mat3} (hR : IsRot R)
    (h : det3 (R + 1) ≠ 0) : inv3 (R + 1)ᵀ = inv3 (R + 1) * R := by
  have hdt : det3 (R + 1)ᵀ ≠ 0 := by rwa [det3_transpose]
  have key : (inv3 (R + 1) * R) * (R + 1)ᵀ = 1 := by
    have expand : R * (R + 1)ᵀ = R + 1 := by
      rw [Matrix.transpose_add, Matrix.transpose_one, Matrix.mul_add,
        hR.mul_transpose, Matrix.mul_one, add_comm]
    rw [Matrix.mul_assoc, expand, inv3_mul _ h]
  exact (left_inv_eq_inv3 _ _ hdt key).symm

/-- For an orthogonal rotation away from the degenerate set, the Cayley
transform is skew-symmetric. -/
theorem cayley_skew {R : Mat3} (hR : IsRot R) (h : det3 (R + 1) ≠ 0) :
    (cayley R)ᵀ = -cayley R := by
  have hcomm : inv3 (R + 1) * (R - 1) = (R - 1) * inv3 (R + 1) :=
    inv3_comm_of_comm h (sub_one_mul_add_one_comm R)
  have step1 : (cayley R)ᵀ = inv3 (R + 1)ᵀ * (R - 1)ᵀ := by
    unfold cayley
    rw [Matrix.transpose_mul, inv3_transpose]
  rw [step1, inv3_transpose_add_one hR h]
  have expand : R * (R - 1)ᵀ = 1 - R := by
    rw [Matrix.transpose_sub, Matrix.transpose_one, Matrix.mul_sub,
      hR.mul_transpose, Matrix.mul_one]
  rw [Matrix.mul_assoc, expand]
  have : inv3 (R + 1) * (1 - R) = -(inv3 (R + 1) * (R - 1)) := by
    rw [← Matrix.mul_neg, neg_sub]
  rw [this, hcomm]
  unfold cayley
  rfl

/-- A skew-symmetric matrix with zero vee is the zero matrix. -/
theorem skew_vee_eq_zero {C : Mat3} (hs : Cᵀ = -C) (hv : vee C = 0) : C = 0 := by
  have e21 : C 2 1 = 0 := congrFun hv 0
  have e02 : C 0 2 = 0 := congrFun hv 1
  have e10 : C 1 0 = 0 := congrFun hv 2
  have hsa : ∀ i j, C i j = -C j i := by
    intro i j
    have := congrFun (congrFun hs j) i
    simpa [Matrix.transpose_apply] using this
  have e00 : C 0 0 = 0 := by have h := hsa 0 0; linarith
  have e11 : C 1 1 = 0 := by have h := hsa 1 1; linarith
  have e22 : C 2 2 = 0 := by have h := hsa 2 2; linarith
  have e01 : C 0 1 = 0 := by have h := hsa 0 1; rw [e10] at h; simpa using h
  have e12 : C 1 2 = 0 := by have h := hsa 1 2; rw [e21] at h; simpa using h
  have e20 : C 2 0 = 0 := by have h := hsa 2 0; rw [e02] at h; simpa using h
  ext i j
  fin_cases i <;> fin_cases j <;> simp only [Matrix.zero_apply] <;>
    first
      | exact e00 | exact e01 | exact e02
      | exact e10 | exact e11 | exact e12
      | exact e20 | exact e21 | exact e22

/-- On the non-degenerate domain, the Cayley rotation log vanishes exactly
at the identity rotation. -/
theorem cayley_vee_eq_zero_iff {R : Mat3} (hR : IsRot R)
    (h : det3 (R + 1) ≠ 0) : vee (cayley R) = 0 ↔ R = 1 := by
  constructor
  · intro hv
    have hC : cayley R = 0 := skew_vee_eq_zero (cayley_skew hR h) hv
    unfold cayley at hC
    have : (R - 1) * inv3 (R + 1) * (R + 1) = 0 * (R + 1) := by rw [hC]
    rw [Matrix.mul_assoc, inv3_mul _ h, Matrix.mul_one, Matrix.zero_mul] at this
    exact sub_eq_zero.mp this
  · intro hone
    rw [hone, cayley_one, vee_zero]

/-- The log-map of the relative transform between two valid poses vanishes
exactly when the poses coincide, away from the degenerate 180-degree set of
the rotation chart. -/
theorem logmap_rel_eq_zero_iff {a b : Pose3} (ha : a.IsValid) (hb : b.IsValid)
    (hdeg : det3 ((a.inverse.comp b).R + 1) ≠ 0) :
    Pose3.logmap (a.inverse.comp b) = 0 ↔ a = b := by
  have hrelR : (a.inverse.comp b).R = a.Rᵀ * b.R := rfl
  have hrelRot : IsRot (a.inverse.comp b).R := by
    rw [hrelR]; exact IsRot.mul (IsRot.transpose ha) hb
  constructor
  · intro hz
    rw [twist_eq_iff] at hz
    obtain ⟨hang, hlin⟩ := hz
    have hR1 : (a.inverse.comp b).R = 1 :=
      (cayley_vee_eq_zero_iff hrelRot hdeg).mp hang
    rw [hrelR] at hR1
    have hRab : b.R = a.R := by
      calc b.R = 1 * b.R := (Matrix.one_mul _).symm
        _ = (a.R * a.Rᵀ) * b.R := by rw [ha.mul_transpose]
        _ = a.R * (a.Rᵀ * b.R) := by rw [Matrix.mul_assoc]
        _ = a.R * 1 := by rw [hR1]
        _ = a.R := Matrix.mul_one _
    have hlin2 : a.Rᵀ.mulVec b.t + -(a.Rᵀ.mulVec a.t) = 0 := hlin
    have htab : b.t = a.t := by
      have hsub : a.Rᵀ.mulVec (b.t - a.t) = 0 := by
        rw [Matrix.mulVec_sub]
        rw [← sub_eq_add_neg] at hlin2
        exact hlin2
      have happ : a.R.mulVec (a.Rᵀ.mulVec (b.t - a.t)) = a.R.mulVec 0 := by
        rw [hsub]
      rw [Matrix.mulVec_mulVec, ha.mul_transpose, Matrix.one_mulVec,
        Matrix.mulVec_zero] at happ
      exact sub_eq_zero.mp happ
    rw [pose_eq_iff]
    exact ⟨hRab.symm, htab.symm⟩
  · intro hab
    rw [← hab, Pose3.inverse_comp_self ha, logmap_identity]

theorem minIndexAux_spec (l : List ℚ) : ∀ (b : ℚ) (bi i : ℕ),
    (minIndexAux b bi i l = (bi, b)
      ∧ ∀ j (hj : j < l.length), b ≤ l.get ⟨j, hj⟩)
    ∨ (∃ k, ∃ hk : k < l.length,
        minIndexAux b bi i l = (i + k, l.get ⟨k, hk⟩)
        ∧ l.get ⟨k, hk⟩ < b
        ∧ (∀ j (hj : j < l.length), l.get ⟨k, hk⟩ ≤ l.get ⟨j, hj⟩)
        ∧ (∀ j, j < k → ∀ hj : j < l.length,
            l.get ⟨k, hk⟩ < l.get ⟨j, hj⟩)) := by
  induction l with
  | nil =>
    intro b bi i
    left
    refine ⟨rfl, ?_⟩
    intro j hj
    exact absurd hj (Nat.not_lt_zero j)
  | cons e rest ih =>
    intro b bi i
    by_cases hlt : e < b
    · have hstep : minIndexAux b bi i (e :: rest) = minIndexAux e i (i + 1) rest := by
        simp [minIndexAux, hlt]
      rcases ih e i (i + 1) with ⟨heq, hall⟩ | ⟨k, hk, heq, hless, hall, hearly⟩
      · right
        refine ⟨0, Nat.succ_pos _, ?_, hlt, ?_, ?_⟩
        · rw [hstep, heq]; simp
        · intro j hj
          cases j with
          | zero => simp
          | succ j' =>
            simp only [List.get_cons_succ, List.get_cons_zero]
            exact hall j' (Nat.lt_of_succ_lt_succ hj)
        · intro j hj; exact absurd hj (Nat.not_lt_zero j)
      · right
        refine ⟨k + 1, Nat.succ_lt_succ hk, ?_, ?_, ?_, ?_⟩
        · rw [hstep, heq]
          simp only [List.get_cons_succ]
          congr 1
          omega
        · simp only [List.get_cons_succ]
          exact lt_trans hless hlt
        · intro j hj
          cases j with
          | zero =>
            simp only [List.get_cons_succ, List.get_cons_zero]
            exact le_of_lt hless
          | succ j' =>
            simp only [List.get_cons_succ]
            exact hall j' (Nat.lt_of_succ_lt_succ hj)
        · intro j hj hj2
          cases j with
          | zero =>
            simp only [List.get_cons_succ, List.get_cons_zero]
            exact hless
          | succ j' =>
            simp only [List.get_cons_succ]
            exact hearly j' (Nat.lt_of_succ_lt_succ hj) (Nat.lt_of_succ_lt_succ hj2)
    · have hstep : minIndexAux b bi i (e :: rest) = minIndexAux b bi (i + 1) rest := by
        simp [minIndexAux, hlt]
      rcases ih b bi (i + 1) with ⟨heq, hall⟩ | ⟨k, hk, heq, hless, hall, hearly⟩
      · left
        refine ⟨by rw [hstep, heq], ?_⟩
        intro j hj
        cases j with
        | zero => simpa using not_lt.mp hlt
        | succ j' =>
          simp only [List.get_cons_succ]
          exact hall j' (Nat.lt_of_succ_lt_succ hj)
      · right
        refine ⟨k + 1, Nat.succ_lt_succ hk, ?_, ?_, ?_, ?_⟩
        · rw [hstep, heq]
          simp only [List.get_cons_succ]
          congr 1
          omega
        · simp only [List.get_cons_succ]
          exact hless
        · intro j hj
          cases j with
          | zero =>
            simp only [List.get_cons_succ, List.get_cons_zero]
            exact le_of_lt (lt_of_lt_of_le hless (not_lt.mp hlt))
          | succ j' =>
            simp only [List.get_cons_succ]
            exact hall j' (Nat.lt_of_succ_lt_succ hj)
        · intro j hj hj2
          cases j with
          | zero =>
            simp only [List.get_cons_succ, List.get_cons_zero]
            exact lt_of_lt_of_le hless (not_lt.mp hlt)
          | succ j' =>
            simp only [List.get_cons_succ]
            exact hearly j' (Nat.lt_of_succ_lt_succ hj) (Nat.lt_of_succ_lt_succ hj2)

/-- Correctness of the min-scan on a non-empty list: the returned index is in
range, the returned value is attained there, it is a lower bound of the whole
list, and every strictly earlier entry is strictly larger (earliest index
wins ties). -/
theorem minIndex_spec (l : List ℚ) (hne : l ≠ []) :
    ∃ hlt : (minIndex l).1 < l.length,
      l.get ⟨(minIndex l).1, hlt⟩ = (minIndex l).2
      ∧ (∀ j (hj : j < l.length), (minIndex l).2 ≤ l.get ⟨j, hj⟩)
      ∧ (∀ j, j < (minIndex l).1 → ∀ hj : j < l.length,
          (minIndex l).2 < l.get ⟨j, hj⟩) := by
  cases l with
  | nil => exact absurd rfl hne
  | cons e rest =>
    have hdef : minIndex (e :: rest) = minIndexAux e 0 1 rest := rfl
    rcases minIndexAux_spec rest e 0 1 with ⟨heq, hall⟩ | ⟨k, hk, heq, hless, hall, hearly⟩
    · have hmi : minIndex (e :: rest) = (0, e) := by rw [hdef, heq]
      refine ⟨by simp [hmi], ?_, ?_, ?_⟩
      · simp [hmi]
      · intro j hj
        simp only [hmi]
        cases j with
        | zero => simp
        | succ j' =>
          simp only [List.get_cons_succ]
          exact hall j' (Nat.lt_of_succ_lt_succ hj)
      · intro j hj
        rw [hmi] at hj
        exact absurd hj (Nat.not_lt_zero j)
    · have hmi : minIndex (e :: rest) = (1 + k, rest.get ⟨k, hk⟩) := by
        rw [hdef, heq]
      have h1k : 1 + k = k + 1 := by omega
      refine ⟨by simp [hmi, h1k, Nat.succ_lt_succ hk], ?_, ?_, ?_⟩
      · simp only [hmi, h1k]
        exact List.get_cons_succ
      · intro j hj
        simp only [hmi]
        cases j with
        | zero =>
          simpa using le_of_lt hless
        | succ j' =>
          simp only [List.get_cons_succ]
          exact hall j' (Nat.lt_of_succ_lt_succ hj)
      · intro j hj hj2
        simp only [hmi]
        simp only [hmi, h1k] at hj
        cases j with
        | zero =>
          simpa using hless
        | succ j' =>
          simp only [List.get_cons_succ]
          exact hearly j' (Nat.lt_of_succ_lt_succ hj) (Nat.lt_of_succ_lt_succ hj2)

theorem whitenRows_mulVec (sigma : Vec3) (M : Mat3) (v : Vec3) :
    (whitenRows sigma M).mulVec v = whitenV sigma (M.mulVec v) := by
  funext i
  simp only [whitenRows, whitenV, Matrix.mulVec, Matrix.of_apply, dotProduct,
    Finset.sum_div]
  congr 1
  funext j
  ring

theorem whitenV_sub (sigma a b : Vec3) :
    whitenV sigma a - whitenV sigma b = whitenV sigma (a - b) := by
  funext i
  simp only [whitenV, Pi.sub_apply]
  ring

theorem hypothesisErrors_length (nlog : ℚ → ℚ) (f : DetectionFactor)
    (x : Vec3) : (f.hypothesisErrors nlog x).length = f.detections.length := by
  simp [DetectionFactor.hypothesisErrors]

theorem hypothesisErrors_ne_nil (nlog : ℚ → ℚ) (f : DetectionFactor)
    (x : Vec3) (hne : f.detections ≠ []) : f.hypothesisErrors nlog x ≠ [] := by
  simp [DetectionFactor.hypothesisErrors, hne]

theorem hypothesisErrors_get (nlog : ℚ → ℚ) (f : DetectionFactor) (x : Vec3)
    (j : ℕ) (hj1 : j < (f.hypothesisErrors nlog x).length)
    (hj2 : j < f.detections.length) :
    (f.hypothesisErrors nlog x).get ⟨j, hj1⟩
      = (f.detections.get ⟨j, hj2⟩).error nlog x f.gamma := by
  simp [DetectionFactor.hypothesisErrors, List.get_eq_getElem, List.getElem_map]

/-- Shared argmin specification of the detection factor's hypothesis
selection: in-range attained index, global minimality, strictly larger
errors before the returned index, the lower index on identical hypothesis
pairs, and agreement of the assignment overload with the pose overload. -/
theorem detectionArgmin_spec (nlog : ℚ → ℚ) (f : DetectionFactor)
    (d : Pose3) (hne : f.detections ≠ []) :
    ∃ hlt : (f.getDetectionIndexAndErrorPose nlog d).1 < f.detections.length,
      (f.detections.get ⟨(f.getDetectionIndexAndErrorPose nlog d).1, hlt⟩).error
            nlog d.t f.gamma
          = (f.getDetectionIndexAndErrorPose nlog d).2
      ∧ (∀ j (hj : j < f.detections.length),
          (f.getDetectionIndexAndErrorPose nlog d).2
            ≤ (f.detections.get ⟨j, hj⟩).error nlog d.t f.gamma)
      ∧ (∀ j, j < (f.getDetectionIndexAndErrorPose nlog d).1 →
          ∀ hj : j < f.detections.length,
          (f.getDetectionIndexAndErrorPose nlog d).2
            < (f.detections.get ⟨j, hj⟩).error nlog d.t f.gamma)
      ∧ (∀ a b, a < b → ∀ hb : b < f.detections.length,
          (∀ ha : a < f.detections.length,
            f.detections.get ⟨a, ha⟩ = f.detections.get ⟨b, hb⟩) →
          (f.getDetectionIndexAndErrorPose nlog d).1 ≠ b)
      ∧ (∀ (c : Values) (po pr : Pose3),
          c.at? f.detectionKey = some po → c.at? f.robotPoseKey = some pr →
          f.getDetectionIndexAndError nlog c
            = .ok (f.getDetectionIndexAndErrorPose nlog (relativePose pr po))) := by
  set errs := f.hypothesisErrors nlog d.t with herrs
  have hlen : errs.length = f.detections.length := hypothesisErrors_length nlog f d.t
  have hner : errs ≠ [] := hypothesisErrors_ne_nil nlog f d.t hne
  have hpose : f.getDetectionIndexAndErrorPose nlog d = minIndex errs := rfl
  obtain ⟨hlt, hatt, hmin, hearly⟩ := minIndex_spec errs hner
  have hlt2 : (f.getDetectionIndexAndErrorPose nlog d).1 < f.detections.length := by
    rw [hpose, ← hlen]; exact hlt
  have hlt1 : (minIndex errs).1 < errs.length := hlt
  refine ⟨hlt2, ?_, ?_, ?_, ?_, ?_⟩
  · exact (hypothesisErrors_get nlog f d.t _ hlt1 hlt2).symm.trans hatt
  · intro j hj
    have hj1 : j < errs.length := by rw [hlen]; exact hj
    have := hmin j hj1
    rwa [hypothesisErrors_get nlog f d.t j hj1 hj] at this
  · intro j hj hj2
    have hj1 : j < errs.length := by rw [hlen]; exact hj2
    have := hearly j hj hj1
    rwa [hypothesisErrors_get nlog f d.t j hj1 hj2] at this
  · intro a b hab hb hsame hres
    have ha : a < f.detections.length := lt_trans hab hb
    have hstrict : a < (f.getDetectionIndexAndErrorPose nlog d).1 := by
      rw [hres]; exact hab
    have hj1 : a < errs.length := by rw [hlen]; exact ha
    have h1 : (minIndex errs).2
        < (f.detections.get ⟨a, ha⟩).error nlog d.t f.gamma := by
      have := hearly a hstrict hj1
      rwa [hypothesisErrors_get nlog f d.t a hj1 ha] at this
    have h2 : (f.detections.get ⟨(f.getDetectionIndexAndErrorPose nlog d).1,
        hlt2⟩).error nlog d.t f.gamma = (minIndex errs).2 :=
      (hypothesisErrors_get nlog f d.t _ hlt1 hlt2).symm.trans hatt
    rw [hsame ha] at h1
    have hgb : f.detections.get ⟨(f.getDetectionIndexAndErrorPose nlog d).1, hlt2⟩
        = f.detections.get ⟨b, hb⟩ := by
      congr 1
      exact Fin.ext hres
    rw [hgb] at h2
    rw [h2] at h1
    exact lt_irrefl _ h1
  · intro c po pr hpo hpr
    simp only [DetectionFactor.getDetectionIndexAndError,
      DetectionFactor.getDetectionValue, DetectionFactor.getRobotPoseValue,
      hpo, hpr]
    rfl

/-- Claim C1: for every detection factor with a non-empty hypothesis list
and every assignment containing both variable identifiers, `error` succeeds
and returns exactly the minimum over all hypotheses of that hypothesis's
error at the observer-relative measurement implied by the current estimates
(max-mixture semantics: the minimum is attained by some hypothesis and is a
lower bound of all of them; no sum over components). -/
theorem detectionFactor_error_is_min (nlog : ℚ → ℚ) (f : DetectionFactor)
    (c : Values) (po pr : Pose3)
    (hne : f.detections ≠ [])
    (hpo : c.at? f.detectionKey = some po)
    (hpr : c.at? f.robotPoseKey = some pr) :
    ∃ e : ℚ, f.error nlog c = .ok e
      ∧ (∃ i, ∃ hi : i < f.detections.length,
          e = (f.detections.get ⟨i, hi⟩).error nlog (relativePose pr po).t f.gamma)
      ∧ ∀ i (hi : i < f.detections.length),
          e ≤ (f.detections.get ⟨i, hi⟩).error nlog (relativePose pr po).t f.gamma := by
  obtain ⟨hlt, hatt, hmin, hearly, htie, hvals⟩ :=
    detectionArgmin_spec nlog f (relativePose pr po) hne
  set r := f.getDetectionIndexAndErrorPose nlog (relativePose pr po) with hr
  have herr : f.error nlog c = .ok r.2 := by
    simp only [DetectionFactor.error, hvals c po pr hpo hpr]
    rfl
  exact ⟨r.2, herr, ⟨r.1, hlt, hatt.symm⟩, hmin⟩

/-- Claim C2: for every detection factor and every pose (or assignment),
`getDetectionIndexAndError` returns an in-range hypothesis index attaining
the returned error, the returned error is the minimum over all hypotheses,
every index strictly before the returned one has a strictly larger error
(ties break to the earliest index), with two identical hypotheses the lower
index is always returned, and the assignment overload agrees with the pose
overload at the observer-relative pose of the current estimates. -/
theorem getDetectionIndexAndError_tie_break (nlog : ℚ → ℚ)
    (f : DetectionFactor) (d : Pose3) (hne : f.detections ≠ []) :
    ∃ hlt : (f.getDetectionIndexAndErrorPose nlog d).1 < f.detections.length,
      (f.detections.get ⟨(f.getDetectionIndexAndErrorPose nlog d).1, hlt⟩).error
            nlog d.t f.gamma
          = (f.getDetectionIndexAndErrorPose nlog d).2
      ∧ (∀ j (hj : j < f.detections.length),
          (f.getDetectionIndexAndErrorPose nlog d).2
            ≤ (f.detections.get ⟨j, hj⟩).error nlog d.t f.gamma)
      ∧ (∀ j, j < (f.getDetectionIndexAndErrorPose nlog d).1 →
          ∀ hj : j < f.detections.length,
          (f.getDetectionIndexAndErrorPose nlog d).2
            < (f.detections.get ⟨j, hj⟩).error nlog d.t f.gamma)
      ∧ (∀ a b, a < b → ∀ hb : b < f.detections.length,
          (∀ ha : a < f.detections.length,
            f.detections.get ⟨a, ha⟩ = f.detections.get ⟨b, hb⟩) →
          (f.getDetectionIndexAndErrorPose nlog d).1 ≠ b)
      ∧ (∀ (c : Values) (po pr : Pose3),
          c.at? f.detectionKey = some po → c.at? f.robotPoseKey = some pr →
          f.getDetectionIndexAndError nlog c
            = .ok (f.getDetectionIndexAndErrorPose nlog (relativePose pr po))) :=
  detectionArgmin_spec nlog f d hne

/-- Closed witness for claim C2 at the concrete two-identical-hypothesis
factor: the selector never returns the higher index of the identical pair. -/
theorem getDetectionIndexAndError_tie_break_witness :
    (fac2.getDetectionIndexAndErrorPose nlog0 Pose3.identity).1 ≠ 1 := by
  obtain ⟨hlt, hatt, hmin, hearly, htie, hvals⟩ :=
    getDetectionIndexAndError_tie_break nlog0 fac2 Pose3.identity
      (List.cons_ne_nil _ _)
  exact htie 0 1 (by norm_num) (by norm_num [fac2]) (fun ha => rfl)

/-- Closed witness for claim C1 at the concrete factor and assignment. -/
theorem detectionFactor_error_is_min_witness :
    ∃ e : ℚ, fac2.error nlog0 vals0 = .ok e
      ∧ (∃ i, ∃ hi : i < fac2.detections.length,
          e = (fac2.detections.get ⟨i, hi⟩).error nlog0
                (relativePose Pose3.identity Pose3.identity).t fac2.gamma)
      ∧ ∀ i (hi : i < fac2.detections.length),
          e ≤ (fac2.detections.get ⟨i, hi⟩).error nlog0
                (relativePose Pose3.identity Pose3.identity).t fac2.gamma :=
  detectionFactor_error_is_min nlog0 fac2 vals0 Pose3.identity Pose3.identity
    (List.cons_ne_nil _ _) rfl rfl

/-- Claim C4: for every constructed hypothesis with positive variances,
every finite 3-vector `x` and every `gamma`, `Detection::error` evaluates
successfully to the explicit finite rational given by its closed form (the
model is a total function: no failure path exists), and is bounded below by
the finite constant `gamma + nlog(det covariance)/2 - nlog w`. -/
theorem detection_error_total_lower_bound (nlog sqrtFn : ℚ → ℚ)
    (box : BoundingBox) (sigma : Vec3) (w gamma : ℚ) (x : Vec3)
    (hpos : ∀ i, 0 < sigma i) :
    (Detection.mkVec sqrtFn box sigma w).error nlog x gamma
        = (1 / 2) * ((x 0 - box.position 0) ^ 2 / sigma 0
            + (x 1 - box.position 1) ^ 2 / sigma 1
            + (x 2 - box.position 2) ^ 2 / sigma 2)
          + (1 / 2) * nlog (det3 (Matrix.diagonal sigma)) - nlog w + gamma
      ∧ gamma + (1 / 2) * nlog (det3 (Matrix.diagonal sigma)) - nlog w
          ≤ (Detection.mkVec sqrtFn box sigma w).error nlog x gamma := by
  have heq : (Detection.mkVec sqrtFn box sigma w).error nlog x gamma
      = (1 / 2) * ((x 0 - box.position 0) ^ 2 / sigma 0
          + (x 1 - box.position 1) ^ 2 / sigma 1
          + (x 2 - box.position 2) ^ 2 / sigma 2)
        + (1 / 2) * nlog (det3 (Matrix.diagonal sigma)) - nlog w + gamma := by
    unfold Detection.error Detection.mkVec
    simp only [dotProduct, Fin.sum_univ_three, Matrix.mulVec_diagonal,
      Pi.sub_apply]
    field_simp
    ring
  refine ⟨heq, ?_⟩
  have h0 : 0 ≤ (x 0 - box.position 0) ^ 2 / sigma 0 :=
    div_nonneg (sq_nonneg _) (le_of_lt (hpos 0))
  have h1 : 0 ≤ (x 1 - box.position 1) ^ 2 / sigma 1 :=
    div_nonneg (sq_nonneg _) (le_of_lt (hpos 1))
  have h2 : 0 ≤ (x 2 - box.position 2) ^ 2 / sigma 2 :=
    div_nonneg (sq_nonneg _) (le_of_lt (hpos 2))
  rw [heq]
  linarith

/-- Closed witness for claim C4 at a concrete hypothesis and measurement. -/
theorem detection_error_total_lower_bound_witness :
    (Detection.mkVec sqrtq box0 ![1, 1, 1] 1).error nlog0 ![5, 0, 0] 0
        = (1 / 2) * ((5 - box0.position 0) ^ 2 / 1 + (0 - box0.position 1) ^ 2 / 1
            + (0 - box0.position 2) ^ 2 / 1)
          + (1 / 2) * nlog0 (det3 (Matrix.diagonal ![1, 1, 1])) - nlog0 1 + 0
      ∧ 0 + (1 / 2) * nlog0 (det3 (Matrix.diagonal ![1, 1, 1])) - nlog0 1
          ≤ (Detection.mkVec sqrtq box0 ![1, 1, 1] 1).error nlog0 ![5, 0, 0] 0 :=
  detection_error_total_lower_bound nlog0 sqrtq box0 ![1, 1, 1] 1 0 ![5, 0, 0]
    (by decide)

/-- Claim C5: for every hypothesis constructed from a per-axis variance
vector (respectively an isotropic scalar variance) whose entries are nonzero
and whose square roots are computed exactly by the numeric routine, the
stored covariance equals `diag(sigma)` (respectively `s • I`), the stored
information matrix equals the inverse of the covariance, and the stored
square-root information matrix `M` satisfies `M * Mᵀ = information`; all
three are fields computed at construction (the model is immutable, as is the
C++ class, whose members have no mutating accessor). -/
theorem detection_construction_consistent (sqrtFn : ℚ → ℚ)
    (box : BoundingBox) (sigma : Vec3) (s w : ℚ)
    (hσ : ∀ i, sigma i ≠ 0) (hs : s ≠ 0)
    (hsq : ∀ i, sqrtFn ((sigma i)⁻¹) * sqrtFn ((sigma i)⁻¹) = (sigma i)⁻¹)
    (hsqs : sqrtFn s⁻¹ * sqrtFn s⁻¹ = s⁻¹) :
    ((Detection.mkVec sqrtFn box sigma w).sigmaMat = Matrix.diagonal sigma
      ∧ (Detection.mkVec sqrtFn box sigma w).info
          = (Detection.mkVec sqrtFn box sigma w).sigmaMat⁻¹
      ∧ (Detection.mkVec sqrtFn box sigma w).sqrtInfo
            * (Detection.mkVec sqrtFn box sigma w).sqrtInfoᵀ
          = (Detection.mkVec sqrtFn box sigma w).info)
    ∧ ((Detection.mkScalar sqrtFn box s w).sigmaMat = s • (1 : Mat3)
      ∧ (Detection.mkScalar sqrtFn box s w).info
          = (Detection.mkScalar sqrtFn box s w).sigmaMat⁻¹
      ∧ (Detection.mkScalar sqrtFn box s w).sqrtInfo
            * (Detection.mkScalar sqrtFn box s w).sqrtInfoᵀ
          = (Detection.mkScalar sqrtFn box s w).info) := by
  have hinfo : ∀ (v : Vec3), (∀ i, v i ≠ 0) →
      Matrix.diagonal (fun i => (v i)⁻¹) * Matrix.diagonal v = (1 : Mat3) := by
    intro v hv
    rw [Matrix.diagonal_mul_diagonal]
    have : (fun i => (v i)⁻¹ * v i) = fun _ : Fin 3 => (1 : ℚ) := by
      funext i; exact inv_mul_cancel₀ (hv i)
    rw [this, Matrix.diagonal_one]
  have hsqrt : ∀ (v : Vec3), (∀ i, sqrtFn ((v i)⁻¹) * sqrtFn ((v i)⁻¹) = (v i)⁻¹) →
      Matrix.diagonal (fun i => sqrtFn ((v i)⁻¹))
          * (Matrix.diagonal (fun i => sqrtFn ((v i)⁻¹)))ᵀ
        = Matrix.diagonal (fun i => (v i)⁻¹) := by
    intro v hv
    rw [Matrix.diagonal_transpose, Matrix.diagonal_mul_diagonal]
    have hfun : (fun i => sqrtFn ((v i)⁻¹) * sqrtFn ((v i)⁻¹))
        = fun i => (v i)⁻¹ := funext hv
    rw [hfun]
  constructor
  · refine ⟨rfl, ?_, ?_⟩
    · exact (Matrix.inv_eq_left_inv (hinfo sigma hσ)).symm
    · exact hsqrt sigma hsq
  · refine ⟨?_, ?_, ?_⟩
    · show Matrix.diagonal (fun _ => s) = s • (1 : Mat3)
      ext i j
      by_cases hij : i = j <;>
        simp [Matrix.diagonal_apply, Matrix.one_apply, hij]
    · exact (Matrix.inv_eq_left_inv (hinfo (fun _ => s) (fun _ => hs))).symm
    · exact hsqrt (fun _ => s) (fun _ => hsqs)

/-- Closed witness for claim C5 at concrete variances with exact square
roots. -/
theorem detection_construction_consistent_witness :
    ((Detection.mkVec sqrtq box0 ![1, 1 / 4, 4] 1).sigmaMat
          = Matrix.diagonal ![1, 1 / 4, 4]
      ∧ (Detection.mkVec sqrtq box0 ![1, 1 / 4, 4] 1).info
          = (Detection.mkVec sqrtq box0 ![1, 1 / 4, 4] 1).sigmaMat⁻¹
      ∧ (Detection.mkVec sqrtq box0 ![1, 1 / 4, 4] 1).sqrtInfo
            * (Detection.mkVec sqrtq box0 ![1, 1 / 4, 4] 1).sqrtInfoᵀ
          = (Detection.mkVec sqrtq box0 ![1, 1 / 4, 4] 1).info)
    ∧ ((Detection.mkScalar sqrtq box0 (1 / 4) 1).sigmaMat = (1 / 4 : ℚ) • (1 : Mat3)
      ∧ (Detection.mkScalar sqrtq box0 (1 / 4) 1).info
          = (Detection.mkScalar sqrtq box0 (1 / 4) 1).sigmaMat⁻¹
      ∧ (Detection.mkScalar sqrtq box0 (1 / 4) 1).sqrtInfo
            * (Detection.mkScalar sqrtq box0 (1 / 4) 1).sqrtInfoᵀ
          = (Detection.mkScalar sqrtq box0 (1 / 4) 1).info) :=
  detection_construction_consistent sqrtq box0 ![1, 1 / 4, 4] (1 / 4) 1
    (by intro i; fin_cases i <;> norm_num)
    (by norm_num)
    (by intro i; fin_cases i <;> norm_num [sqrtq])
    (by norm_num [sqrtq])

/-- Claim C6: constructing a detection factor with an empty hypothesis list
fails fast at construction with an explicit configuration error (never
silently coerced), and every successfully constructed factor has a non-empty
hypothesis list whose whitening-model and measurement arrays have exactly
the hypothesis list's length (the constructor derives both parallel arrays
from the hypothesis list, so a length mismatch cannot arise). -/
theorem detectionFactor_create_validation :
    (∀ (dk rk : ℕ) (mode : Mode),
      DetectionFactor.create [] dk rk mode = .error .emptyHypothesisList)
    ∧ (∀ (ds : List Detection) (dk rk : ℕ) (mode : Mode) (f : DetectionFactor),
        DetectionFactor.create ds dk rk mode = .ok f →
        f.detections ≠ [] ∧ f.detections = ds
          ∧ f.diagonals.length = f.detections.length
          ∧ f.zs.length = f.detections.length) := by
  constructor
  · intro dk rk mode; rfl
  · intro ds dk rk mode f hok
    cases ds with
    | nil => simp [DetectionFactor.create] at hok
    | cons d rest =>
      simp only [DetectionFactor.create, List.isEmpty_cons, Bool.false_eq_true,
        if_false, Except.ok.injEq] at hok
      subst hok
      refine ⟨List.cons_ne_nil _ _, rfl, ?_, ?_⟩ <;> simp

/-- Closed witness for claim C6: the empty list is rejected and a concrete
one-hypothesis construction succeeds with consistent parallel arrays. -/
theorem detectionFactor_create_validation_witness :
    DetectionFactor.create [] 0 1 Mode.tightlyCoupled
        = .error .emptyHypothesisList
    ∧ ∃ f, DetectionFactor.create [det0] 0 1 Mode.tightlyCoupled = .ok f
        ∧ f.detections ≠ []
        ∧ f.diagonals.length = f.detections.length
        ∧ f.zs.length = f.detections.length := by
  obtain ⟨hempty, hok⟩ := detectionFactor_create_validation
  constructor
  · exact hempty 0 1 Mode.tightlyCoupled
  · refine ⟨_, rfl, ?_⟩
    have hp := hok [det0] 0 1 Mode.tightlyCoupled _ rfl
    exact ⟨hp.1, hp.2.2.1, hp.2.2.2⟩

/-- Claim C7: for every detection factor and every assignment lacking the
object-pose identifier or the observer-pose identifier, `error`, `linearize`
and the assignment argmin accessor all fail with the out-of-range error —
no crash, no fallback value — and, the model being purely functional like
the const-qualified C++ methods, the factor itself is unchanged. -/
theorem detectionFactor_missing_key_error (nlog : ℚ → ℚ)
    (f : DetectionFactor) (c : Values)
    (h : c.at? f.detectionKey = none ∨ c.at? f.robotPoseKey = none) :
    f.error nlog c = .error .keyOutOfRange
    ∧ f.linearize nlog c = .error .keyOutOfRange
    ∧ f.getDetectionIndexAndError nlog c = .error .keyOutOfRange := by
  rcases hobj : c.at? f.detectionKey with _ | po
  · refine ⟨?_, ?_, ?_⟩ <;>
      simp [DetectionFactor.error, DetectionFactor.linearize,
        DetectionFactor.getDetectionIndexAndError,
        DetectionFactor.getDetectionValue, DetectionFactor.getRobotPoseValue,
        hobj, Bind.bind, Except.bind, Functor.map, Except.map]
  · have hrob : c.at? f.robotPoseKey = none := by
      rcases h with h | h
      · rw [h] at hobj; cases hobj
      · exact h
    refine ⟨?_, ?_, ?_⟩ <;>
      simp [DetectionFactor.error, DetectionFactor.linearize,
        DetectionFactor.getDetectionIndexAndError,
        DetectionFactor.getDetectionValue, DetectionFactor.getRobotPoseValue,
        hobj, hrob, Bind.bind, Except.bind, Functor.map, Except.map]

/-- Closed witness for claim C7 at a concrete assignment missing the
observer-pose variable. -/
theorem detectionFactor_missing_key_error_witness :
    fac2.error nlog0 vals1 = .error .keyOutOfRange
    ∧ fac2.linearize nlog0 vals1 = .error .keyOutOfRange
    ∧ fac2.getDetectionIndexAndError nlog0 vals1 = .error .keyOutOfRange :=
  detectionFactor_missing_key_error nlog0 fac2 vals1 (Or.inr rfl)

/-- The identity pose is a valid pose. -/
theorem pose_identity_valid : Pose3.identity.IsValid := by
  refine ⟨?_, det3_one⟩
  simp [Pose3.identity]

/-- Claim C3: for every detection factor and assignment containing both
variables, `linearize` succeeds, re-selects the minimum-error hypothesis at
the current assignment (its whitening model and measurement are the ones of
the argmin index returned by the selector) and builds the linear factor from
only that hypothesis; in loosely-coupled mode the observer-pose Jacobian
block is zero, while in tightly-coupled mode both the object-pose and the
observer-pose Jacobian blocks are nonzero whenever the poses are valid
(non-degenerate) and the whitening sigmas are nonzero. -/
theorem detectionFactor_linearize_coupling (nlog : ℚ → ℚ)
    (f : DetectionFactor) (c : Values) (po pr : Pose3)
    (hpo : c.at? f.detectionKey = some po)
    (hpr : c.at? f.robotPoseKey = some pr) :
    ∃ J : LinearizedFactor, f.linearize nlog c = .ok J
      ∧ J.noiseSigmas = f.diagonals.getD
          (f.getDetectionIndexAndErrorPose nlog (relativePose pr po)).1
          (fun _ => 1)
      ∧ J.rhs = whitenV J.noiseSigmas
          ((f.zs.getD (f.getDetectionIndexAndErrorPose nlog (relativePose pr po)).1 0)
            - (relativePose pr po).t)
      ∧ J.objBlock = ⟨0, whitenRows J.noiseSigmas (pr.Rᵀ * po.R)⟩
      ∧ (f.mode = Mode.looselyCoupled → J.robBlock = JBlock.zero)
      ∧ (f.mode = Mode.tightlyCoupled → f.detections ≠ [] →
          pr.IsValid → po.IsValid →
          (∀ s ∈ f.diagonals, ∀ i, s i ≠ 0) →
          f.diagonals.length = f.detections.length →
          J.objBlock.trans ≠ 0 ∧ J.robBlock.trans ≠ 0) := by
  have hok : f.linearize nlog c = .ok (f.linearizePure nlog pr po) := by
    simp only [DetectionFactor.linearize, DetectionFactor.getDetectionValue,
      DetectionFactor.getRobotPoseValue, hpo, hpr]
    rfl
  refine ⟨f.linearizePure nlog pr po, hok, rfl, rfl, rfl, ?_, ?_⟩
  · intro hm
    simp [DetectionFactor.linearizePure, hm]
  · intro hm hne hprV hpoV hsig hlen
    set sel := f.getDetectionIndexAndErrorPose nlog (relativePose pr po) with hsel
    obtain ⟨hlt, -, -, -, -⟩ := detectionArgmin_spec nlog f (relativePose pr po) hne
    have hltd : sel.1 < f.diagonals.length := by rw [hlen]; exact hlt
    have hgd : f.diagonals.getD sel.1 (fun _ => 1)
        = f.diagonals.get ⟨sel.1, hltd⟩ := by
      rw [List.getD_eq_getElem?_getD, List.getElem?_eq_getElem hltd]
      rfl
    have hmem : f.diagonals.get ⟨sel.1, hltd⟩ ∈ f.diagonals :=
      List.get_mem f.diagonals sel.1 hltd
    have hsz : ∀ i, f.diagonals.getD sel.1 (fun _ => 1) i ≠ 0 := by
      rw [hgd]
      exact hsig _ hmem
    constructor
    · show whitenRows (f.diagonals.getD sel.1 fun _ => 1) (pr.Rᵀ * po.R) ≠ 0
      intro h0
      have hM : pr.Rᵀ * po.R = 0 := by
        ext i j
        have := congrFun (congrFun h0 i) j
        simp only [whitenRows, Matrix.of_apply, Matrix.zero_apply] at this ⊢
        exact (div_eq_zero_iff.mp this).resolve_right (hsz i)
      have hdet : det3 (pr.Rᵀ * po.R) = 1 := by
        rw [det3_mul, det3_transpose, hprV.2, hpoV.2, one_mul]
      rw [hM, det3_zero] at hdet
      exact zero_ne_one hdet
    · show (match f.mode with
          | Mode.looselyCoupled => JBlock.zero
          | Mode.tightlyCoupled =>
              ⟨whitenRows (f.diagonals.getD sel.1 fun _ => 1)
                  (hat (relativePose pr po).t),
                whitenRows (f.diagonals.getD sel.1 fun _ => 1) (-1)⟩ :
            JBlock).trans ≠ 0
      rw [hm]
      intro h0
      have := congrFun (congrFun h0 0) 0
      simp only [whitenRows, Matrix.of_apply, Matrix.zero_apply,
        Matrix.neg_apply, Matrix.one_apply_eq] at this
      rcases div_eq_zero_iff.mp this with h | h
      · exact (neg_ne_zero.mpr one_ne_zero) h
      · exact hsz 0 h

/-- Closed witness for claim C3 at the concrete tightly-coupled factor and
assignment: linearization succeeds with both Jacobian blocks nonzero. -/
theorem detectionFactor_linearize_coupling_witness :
    ∃ J : LinearizedFactor, fac2.linearize nlog0 vals0 = .ok J
      ∧ J.objBlock.trans ≠ 0 ∧ J.robBlock.trans ≠ 0 := by
  obtain ⟨J, hJ, -, -, -, -, htight⟩ :=
    detectionFactor_linearize_coupling nlog0 fac2 vals0
      Pose3.identity Pose3.identity rfl rfl
  have hnz := htight rfl (List.cons_ne_nil _ _)
    pose_identity_valid pose_identity_valid
    (by intro s hs i; fin_cases hs <;> fin_cases i <;> norm_num [fac2])
    rfl
  exact ⟨J, hJ, hnz.1, hnz.2⟩

theorem whitenT_zero (sr st : Vec3) : whitenT sr st 0 = 0 := by
  simp [whitenT, Twist.zero_def, whitenV_zero]

theorem identity_inverse_eq : Pose3.identity.inverse = Pose3.identity := by
  unfold Pose3.inverse Pose3.identity
  rw [pose_eq_iff]
  constructor
  · exact Matrix.transpose_one
  · simp

theorem identity_comp_eq (p : Pose3) : Pose3.identity.comp p = p := by
  unfold Pose3.comp Pose3.identity
  rw [pose_eq_iff]
  constructor
  · exact Matrix.one_mul _
  · simp [Matrix.one_mulVec]

theorem logmap_rot_one (v : Vec3) : Pose3.logmap ⟨1, v⟩ = ⟨0, v⟩ := by
  unfold Pose3.logmap
  rw [show (⟨1, v⟩ : Pose3).R = 1 from rfl, cayley_one, vee_zero]

/-- The residual of a factor built by the `ConstantVelocityFactor`
constructor: since the measured transform is the identity, it is the
whitened log-map of the relative transform itself. -/
theorem cv_create_residual (k1 k2 : ℕ) (sr st : Vec3) (p q : Pose3) :
    (ConstantVelocityFactor.create k1 k2 sr st).residual p q
      = whitenT sr st (Pose3.logmap (p.inverse.comp q)) := by
  unfold ConstantVelocityFactor.residual
  rw [show (ConstantVelocityFactor.create k1 k2 sr st).measured
      = Pose3.identity from rfl,
    identity_inverse_eq, identity_comp_eq]
  rfl

theorem rel_identity_poseX :
    Pose3.identity.inverse.comp poseX = poseX := by
  rw [identity_inverse_eq, identity_comp_eq]

theorem rel_identity_poseY :
    Pose3.identity.inverse.comp poseY = poseY := by
  rw [identity_inverse_eq, identity_comp_eq]

theorem geoDistSq_id_poseX : geoDistSq Pose3.identity poseX = 1 := by
  unfold geoDistSq
  rw [rel_identity_poseX, show poseX = ⟨1, ![1, 0, 0]⟩ from rfl,
    logmap_rot_one]
  norm_num [Twist.normSq, normSq3]

theorem geoDistSq_id_poseY : geoDistSq Pose3.identity poseY = 9 / 4 := by
  unfold geoDistSq
  rw [rel_identity_poseY, show poseY = ⟨1, ![0, 3 / 4 + 3 / 4, 0]⟩ from by
      rw [pose_eq_iff]; norm_num [poseY],
    logmap_rot_one]
  norm_num [Twist.normSq, normSq3]

theorem cvAniso_resSq_X :
    cvAniso.residualNormSq Pose3.identity poseX = 4 := by
  unfold ConstantVelocityFactor.residualNormSq
  rw [show cvAniso = ConstantVelocityFactor.create 3 4 ![1, 1, 1]
      ![1 / 2, 1, 1] from rfl, cv_create_residual,
    rel_identity_poseX, show poseX = ⟨1, ![1, 0, 0]⟩ from rfl,
    logmap_rot_one]
  norm_num [Twist.normSq, normSq3, whitenT, whitenV]

theorem cvAniso_resSq_Y :
    cvAniso.residualNormSq Pose3.identity poseY = 9 / 4 := by
  unfold ConstantVelocityFactor.residualNormSq
  rw [show cvAniso = ConstantVelocityFactor.create 3 4 ![1, 1, 1]
      ![1 / 2, 1, 1] from rfl, cv_create_residual,
    rel_identity_poseY, show poseY = ⟨1, ![0, 3 / 4 + 3 / 4, 0]⟩ from by
      rw [pose_eq_iff]; norm_num [poseY],
    logmap_rot_one]
  norm_num [Twist.normSq, normSq3, whitenT, whitenV]

/-- Claim C9 counterexample: the residual magnitude of a constant-velocity
factor does not, in general, grow monotonically with the geodesic distance
between the two poses: the concrete anisotropically whitened factor
`cvAniso` maps the closer pair (identity, unit-x translation) to a strictly
larger residual than the farther pair (identity, 3/2-y translation). -/
theorem cv_monotone_counterexample :
    ¬ (∀ (f : ConstantVelocityFactor) (p1 p2 q1 q2 : Pose3),
        geoDistSq p1 p2 ≤ geoDistSq q1 q2 →
        f.residualNormSq p1 p2 ≤ f.residualNormSq q1 q2) := by
  intro h
  have hd : geoDistSq Pose3.identity poseX ≤ geoDistSq Pose3.identity poseY := by
    rw [geoDistSq_id_poseX, geoDistSq_id_poseY]
    norm_num
  have hc := h cvAniso Pose3.identity poseX Pose3.identity poseY hd
  rw [cvAniso_resSq_X, cvAniso_resSq_Y] at hc
  norm_num at hc

/-- Claim C9 (amended): for every factor built by the
`ConstantVelocityFactor` constructor with nonzero noise sigmas, the encoded
measured transform is the identity; the residual is zero exactly when the
two pose variables are identical (for valid poses whose relative rotation is
outside the degenerate 180-degree set of the chart); and when the noise
model is isotropic the squared residual magnitude equals the squared
geodesic distance divided by the squared sigma, hence grows monotonically
with the geodesic distance.  (The unqualified monotonicity of the original
claim fails for anisotropic noise, see the counterexample.) -/
theorem cv_residual_amended (k1 k2 : ℕ) (sr st : Vec3)
    (hsr : ∀ i, sr i ≠ 0) (hst : ∀ i, st i ≠ 0) :
    ((ConstantVelocityFactor.create k1 k2 sr st).measured = Pose3.identity)
    ∧ (∀ p q : Pose3, p.IsValid → q.IsValid →
        det3 ((p.inverse.comp q).R + 1) ≠ 0 →
        ((ConstantVelocityFactor.create k1 k2 sr st).residual p q = 0 ↔ p = q))
    ∧ (∀ s : ℚ, (∀ i, sr i = s) → (∀ i, st i = s) →
        ∀ p1 p2 q1 q2 : Pose3,
          geoDistSq p1 p2 ≤ geoDistSq q1 q2 →
          (ConstantVelocityFactor.create k1 k2 sr st).residualNormSq p1 p2
            ≤ (ConstantVelocityFactor.create k1 k2 sr st).residualNormSq q1 q2) := by
  have hres := cv_create_residual k1 k2 sr st
  refine ⟨rfl, ?_, ?_⟩
  · intro p q hp hq hdeg
    rw [hres]
    have hw : whitenT sr st (Pose3.logmap (p.inverse.comp q)) = 0
        ↔ Pose3.logmap (p.inverse.comp q) = 0 := by
      simp only [whitenT, Twist.zero_def, twist_eq_iff,
        whitenV_eq_zero_iff hsr, whitenV_eq_zero_iff hst]
    rw [hw]
    exact logmap_rel_eq_zero_iff hp hq hdeg
  · intro s hsrs hsts p1 p2 q1 q2 hle
    have hsrf : sr = fun _ => s := funext hsrs
    have hstf : st = fun _ => s := funext hsts
    have hx : ∀ x : ℚ, (x / s) * (x / s) = x * x / s ^ 2 := fun x => by
      rw [div_mul_div_comm, sq]
    have key : ∀ wv : Twist,
        (whitenT (fun _ => s) (fun _ => s) wv).normSq = wv.normSq / s ^ 2 := by
      intro wv
      show normSq3 (whitenV (fun _ => s) wv.ang)
            + normSq3 (whitenV (fun _ => s) wv.lin)
          = (normSq3 wv.ang + normSq3 wv.lin) / s ^ 2
      unfold normSq3 whitenV
      rw [hx, hx, hx, hx, hx, hx, div_add_div_same, div_add_div_same,
        div_add_div_same, div_add_div_same, div_add_div_same]
    have hform : ∀ p q : Pose3,
        (ConstantVelocityFactor.create k1 k2 sr st).residualNormSq p q
          = geoDistSq p q / s ^ 2 := by
      intro p q
      unfold ConstantVelocityFactor.residualNormSq
      rw [hres, hsrf, hstf]
      exact key _
    rw [hform, hform]
    rcases eq_or_ne s 0 with hs | hs
    · rw [hs]
      norm_num
    · have hpos : 0 < s ^ 2 := by positivity
      gcongr

/-- Closed witness for claim C9 (amended) at the concrete isotropic factor:
identity measured transform, zero residual on an identical pose pair, and
monotone residual on a concrete ordered pair of pose pairs. -/
theorem cv_residual_amended_witness :
    (cvIso.measured = Pose3.identity)
    ∧ (cvIso.residual poseX poseX = 0)
    ∧ (cvIso.residualNormSq Pose3.identity poseX
        ≤ cvIso.residualNormSq Pose3.identity poseY) := by
  obtain ⟨hm, hzero, hmono⟩ :=
    cv_residual_amended 3 4 ![1, 1, 1] ![1, 1, 1]
      (by intro i; fin_cases i <;> norm_num)
      (by intro i; fin_cases i <;> norm_num)
  refine ⟨hm, ?_, ?_⟩
  · refine (hzero poseX poseX pose_identity_valid pose_identity_valid ?_).mpr rfl
    show det3 ((poseX.inverse.comp poseX).R + 1) ≠ 0
    have hrel : (poseX.inverse.comp poseX).R = 1ᵀ * 1 := rfl
    rw [hrel, Matrix.transpose_one, Matrix.one_mul]
    have h8 : det3 ((1 : Mat3) + 1) = 8 := by
      rw [det3_eq_det,
        show ((1 : Mat3) + 1) = (2 : ℚ) • (1 : Mat3) from by rw [two_smul],
        Matrix.det_smul, Matrix.det_one]
      norm_num [Fintype.card_fin]
    rw [h8]
    norm_num
  · refine hmono 1 (by intro i; fin_cases i <;> norm_num)
      (by intro i; fin_cases i <;> norm_num) Pose3.identity poseX
      Pose3.identity poseY ?_
    rw [geoDistSq_id_poseX, geoDistSq_id_poseY]
    norm_num

/-- Claim C10: for both motion factors, `equals` returns false whenever the
other factor is not of the same concrete kind — whatever its keys and noise
model — and returns true exactly when the other factor is of the same kind
and the base-factor comparison succeeds within the given tolerance. -/
theorem factor_equals_kind_dispatch :
    (∀ (a : ConstantVelocityFactor) (other : AnyFactor) (tol : ℚ),
        (∀ b, other ≠ AnyFactor.constantVelocity b) →
        a.equals other tol = false)
    ∧ (∀ (a : ConstantVelocityFactor) (other : AnyFactor) (tol : ℚ),
        a.equals other tol = true
          ↔ ∃ b, other = AnyFactor.constantVelocity b
              ∧ cvBaseEquals a b tol = true)
    ∧ (∀ (a : StablePoseFactor) (other : AnyFactor) (tol : ℚ),
        (∀ b, other ≠ AnyFactor.stablePose b) →
        a.equals other tol = false)
    ∧ (∀ (a : StablePoseFactor) (other : AnyFactor) (tol : ℚ),
        a.equals other tol = true
          ↔ ∃ b, other = AnyFactor.stablePose b
              ∧ spBaseEquals a b tol = true) := by
  refine ⟨?_, ?_, ?_, ?_⟩
  · intro a other tol hk
    cases other with
    | constantVelocity b => exact absurd rfl (hk b)
    | stablePose b => rfl
    | detection b => rfl
  · intro a other tol
    cases other with
    | constantVelocity b =>
      simp [ConstantVelocityFactor.equals]
    | stablePose b =>
      simp [ConstantVelocityFactor.equals]
    | detection b =>
      simp [ConstantVelocityFactor.equals]
  · intro a other tol hk
    cases other with
    | stablePose b => exact absurd rfl (hk b)
    | constantVelocity b => rfl
    | detection b => rfl
  · intro a other tol
    cases other with
    | stablePose b =>
      simp [StablePoseFactor.equals]
    | constantVelocity b =>
      simp [StablePoseFactor.equals]
    | detection b =>
      simp [StablePoseFactor.equals]

/-- Closed witness for claim C10: cross-kind comparisons of the concrete
factors are false even at a large tolerance, and a same-kind comparison of a
factor with itself is true. -/
theorem factor_equals_kind_dispatch_witness :
    cvIso.equals (AnyFactor.stablePose sp0) 1000 = false
    ∧ sp0.equals (AnyFactor.constantVelocity cvIso) 1000 = false
    ∧ sp0.equals (AnyFactor.stablePose sp0) 1 = true := by
  obtain ⟨hcvk, hcvb, hspk, hspb⟩ := factor_equals_kind_dispatch
  refine ⟨?_, ?_, ?_⟩
  · exact hcvk cvIso (AnyFactor.stablePose sp0) 1000 (fun b h => by cases h)
  · exact hspk sp0 (AnyFactor.constantVelocity cvIso) 1000 (fun b h => by cases h)
  · refine (hspb sp0 (AnyFactor.stablePose sp0) 1).mpr ⟨sp0, rfl, ?_⟩
    simp [spBaseEquals, vecNear]

theorem vee_hat (x : Vec3) : vee (hat x) = x := by
  funext i
  fin_cases i <;> simp [vee, hat]

theorem hat_smul (c : ℚ) (x : Vec3) : hat (c • x) = c • hat x := by
  ext i j
  fin_cases i <;> fin_cases j <;> simp [hat]

theorem hat_vee_skew {C : Mat3} (hs : Cᵀ = -C) : hat (vee C) = C := by
  have hsa : ∀ i j, C i j = -C j i := by
    intro i j
    have := congrFun (congrFun hs j) i
    simpa [Matrix.transpose_apply] using this
  have e00 : C 0 0 = 0 := by have h := hsa 0 0; linarith
  have e11 : C 1 1 = 0 := by have h := hsa 1 1; linarith
  have e22 : C 2 2 = 0 := by have h := hsa 2 2; linarith
  have e01 : C 0 1 = -C 1 0 := hsa 0 1
  have e12 : C 1 2 = -C 2 1 := hsa 1 2
  have e20 : C 2 0 = -C 0 2 := hsa 2 0
  ext i j
  fin_cases i <;> fin_cases j <;>
    simp [hat, vee] <;>
    linarith [e00, e11, e22, e01, e12, e20]

theorem hat_mul_hat (x y : Vec3) :
    hat x * hat y = vecMulVec y x - dotProduct x y • (1 : Mat3) := by
  ext i j
  fin_cases i <;> fin_cases j <;>
    simp [hat, Matrix.mul_apply, Fin.sum_univ_three, Matrix.vecMulVec_apply,
      Matrix.one_apply, dotProduct] <;> ring

theorem normSq3_nonneg (x : Vec3) : 0 ≤ normSq3 x := by
  unfold normSq3
  nlinarith [mul_self_nonneg (x 0), mul_self_nonneg (x 1), mul_self_nonneg (x 2)]

theorem one_add_normSq3_ne_zero (x : Vec3) : (1 : ℚ) + normSq3 x ≠ 0 := by
  have := normSq3_nonneg x
  intro h
  linarith

theorem det3_one_sub_hat (x : Vec3) : det3 (1 - hat x) = 1 + normSq3 x := by
  simp [det3, hat, normSq3, Matrix.sub_apply, Matrix.one_apply]
  ring

theorem det3_one_add_hat (x : Vec3) : det3 (1 + hat x) = 1 + normSq3 x := by
  simp [det3, hat, normSq3, Matrix.add_apply, Matrix.one_apply]
  ring

theorem det3_smul (c : ℚ) (M : Mat3) : det3 (c • M) = c ^ 3 * det3 M := by
  simp [det3, Matrix.smul_apply]
  ring

theorem det3_inv3 {M : Mat3} (h : det3 M ≠ 0) : det3 (inv3 M) = (det3 M)⁻¹ := by
  have h1 : det3 M * det3 (inv3 M) = 1 := by
    rw [← det3_mul, mul_inv3 M h, det3_one]
  exact (inv_eq_of_mul_eq_one_right h1).symm

theorem vecMulVec_mul_self (x y : Vec3) :
    vecMulVec y x * vecMulVec y x = dotProduct x y • vecMulVec y x := by
  ext i j
  fin_cases i <;> fin_cases j <;>
    simp [Matrix.vecMulVec_apply, Matrix.mul_apply, Fin.sum_univ_three,
      dotProduct] <;> ring

theorem det3_smul_one_add_vecMulVec (c : ℚ) (x y : Vec3) :
    det3 (c • 1 + vecMulVec y x) = c ^ 2 * (c + dotProduct x y) := by
  simp [det3, Matrix.add_apply, Matrix.smul_apply, Matrix.one_apply,
    Matrix.vecMulVec_apply, dotProduct, Fin.sum_univ_three]
  ring

theorem sherman_poly (x y : Vec3) :
    ((1 : Mat3) - vecMulVec y x) * ((1 - dotProduct x y) • 1 + vecMulVec y x)
      = (1 - dotProduct x y) • (1 : Mat3) := by
  ext i j
  fin_cases i <;> fin_cases j <;>
    simp [Matrix.mul_apply, Fin.sum_univ_three, Matrix.vecMulVec_apply,
      Matrix.one_apply, dotProduct] <;> ring

theorem inv3_sherman (x y : Vec3) (hσ : (1 : ℚ) - dotProduct x y ≠ 0) :
    inv3 ((1 - dotProduct x y) • 1 + vecMulVec y x)
      = (1 - dotProduct x y)⁻¹ • ((1 : Mat3) - vecMulVec y x) := by
  have hdet : det3 ((1 - dotProduct x y) • 1 + vecMulVec y x) ≠ 0 := by
    rw [det3_smul_one_add_vecMulVec]
    have h1 : 1 - dotProduct x y + dotProduct x y = 1 := by ring
    rw [h1, mul_one]
    exact pow_ne_zero 2 hσ
  refine (left_inv_eq_inv3 _ _ hdet ?_).symm
  rw [Matrix.smul_mul, sherman_poly, smul_smul, inv_mul_cancel₀ hσ, one_smul]

theorem hat_transpose (a : Vec3) : (hat a)ᵀ = -hat a := by
  ext i j
  fin_cases i <;> fin_cases j <;> simp [hat, Matrix.transpose_apply]

theorem cay_comm_form (A : Mat3) (h : det3 (1 - A) ≠ 0) :
    cay A = inv3 (1 - A) * (1 + A) := by
  unfold cay
  exact (inv3_comm_of_comm h (by noncomm_ring)).symm

theorem cay_hat_transpose (a : Vec3) : (cay (hat a))ᵀ = cay (hat (-a)) := by
  have hs : det3 ((1 : Mat3) - hat a) ≠ 0 := by
    rw [det3_one_sub_hat]; exact one_add_normSq3_ne_zero a
  have key : (cay (hat a))ᵀ = inv3 (1 + hat a) * (1 - hat a) := by
    unfold cay
    rw [Matrix.transpose_mul, ← inv3_transpose, Matrix.transpose_sub,
      Matrix.transpose_one, hat_transpose, Matrix.transpose_add,
      Matrix.transpose_one, hat_transpose, sub_neg_eq_add, ← sub_eq_add_neg]
  have hneg : hat (-a) = -hat a := by
    ext i j; fin_cases i <;> fin_cases j <;> simp [hat]
  have hs2 : det3 ((1 : Mat3) - hat (-a)) ≠ 0 := by
    rw [det3_one_sub_hat]; exact one_add_normSq3_ne_zero (-a)
  rw [key, cay_comm_form _ hs2, hneg, sub_neg_eq_add, ← sub_eq_add_neg]

theorem cay_neg_mul_cay (a : Vec3) : cay (hat (-a)) * cay (hat a) = 1 := by
  have hneg : hat (-a) = -hat a := by
    ext i j; fin_cases i <;> fin_cases j <;> simp [hat]
  have hadd : det3 ((1 : Mat3) + hat a) ≠ 0 := by
    rw [det3_one_add_hat]; exact one_add_normSq3_ne_zero a
  have hsub : det3 ((1 : Mat3) - hat a) ≠ 0 := by
    rw [det3_one_sub_hat]; exact one_add_normSq3_ne_zero a
  unfold cay
  rw [hneg, sub_neg_eq_add, ← sub_eq_add_neg]
  calc (1 - hat a) * inv3 (1 + hat a) * ((1 + hat a) * inv3 (1 - hat a))
      = (1 - hat a) * (inv3 (1 + hat a) * (1 + hat a)) * inv3 (1 - hat a) := by
        simp only [Matrix.mul_assoc]
    _ = (1 - hat a) * inv3 (1 - hat a) := by
        rw [inv3_mul _ hadd, Matrix.mul_one]
    _ = 1 := mul_inv3 _ hsub

theorem one_sub_hat_poly (a : Vec3) :
    ((1 : Mat3) - hat a + vecMulVec a a) * (1 + hat a)
      = (1 + normSq3 a) • (1 : Mat3) := by
  ext i j
  fin_cases i <;> fin_cases j <;>
    simp [Matrix.mul_apply, Fin.sum_univ_three, Matrix.vecMulVec_apply,
      Matrix.one_apply, hat, normSq3] <;> ring

theorem inv3_one_add_hat (a : Vec3) :
    inv3 ((1 : Mat3) + hat a)
      = (1 + normSq3 a)⁻¹ • ((1 : Mat3) - hat a + vecMulVec a a) := by
  have hdet : det3 ((1 : Mat3) + hat a) ≠ 0 := by
    rw [det3_one_add_hat]; exact one_add_normSq3_ne_zero a
  refine (left_inv_eq_inv3 _ _ hdet ?_).symm
  rw [Matrix.smul_mul, one_sub_hat_poly, smul_smul,
    inv_mul_cancel₀ (one_add_normSq3_ne_zero a), one_smul]

theorem hat_mulVec_poly (M : Mat3) (x : Vec3) :
    Mᵀ * hat (M.mulVec x) * M = det3 M • hat x := by
  ext i j
  fin_cases i <;> fin_cases j <;>
    simp [Matrix.mul_apply, Matrix.mulVec, Fin.sum_univ_three,
      Matrix.transpose_apply, hat, det3, dotProduct] <;> ring

theorem hat_conj {S : Mat3} (hS : IsRot S) (b : Vec3) :
    Sᵀ * hat b * S = hat (Sᵀ.mulVec b) := by
  have key := hat_mulVec_poly Sᵀ b
  rw [Matrix.transpose_transpose, det3_transpose, hS.2, one_smul] at key
  have h1 : Sᵀ * (S * hat (Sᵀ.mulVec b) * Sᵀ) * S = Sᵀ * hat b * S := by
    rw [key]
  calc Sᵀ * hat b * S = Sᵀ * (S * hat (Sᵀ.mulVec b) * Sᵀ) * S := h1.symm
    _ = (Sᵀ * S) * hat (Sᵀ.mulVec b) * (Sᵀ * S) := by
        simp only [Matrix.mul_assoc]
    _ = hat (Sᵀ.mulVec b) := by
        rw [hS.1, Matrix.one_mul, Matrix.mul_one]

theorem inv3_conj {S M : Mat3} (hS : IsRot S) (hM : det3 M ≠ 0) :
    Sᵀ * inv3 M * S = inv3 (Sᵀ * M * S) := by
  have hdet : det3 (Sᵀ * M * S) ≠ 0 := by
    rw [det3_mul, det3_mul, det3_transpose, hS.2, one_mul, mul_one]
    exact hM
  refine left_inv_eq_inv3 _ _ hdet ?_
  calc Sᵀ * inv3 M * S * (Sᵀ * M * S)
      = Sᵀ * inv3 M * (S * Sᵀ) * M * S := by simp only [Matrix.mul_assoc]
    _ = Sᵀ * (inv3 M * M) * S := by
        rw [hS.mul_transpose]
        simp only [Matrix.mul_one, Matrix.mul_assoc]
    _ = 1 := by rw [inv3_mul _ hM, Matrix.mul_one, hS.1]

theorem cay_conj {S : Mat3} (hS : IsRot S) (b : Vec3) :
    Sᵀ * cay (hat b) * S = cay (hat (Sᵀ.mulVec b)) := by
  have hsub : det3 ((1 : Mat3) - hat b) ≠ 0 := by
    rw [det3_one_sub_hat]; exact one_add_normSq3_ne_zero b
  have h1 : Sᵀ * ((1 : Mat3) + hat b) * S = 1 + hat (Sᵀ.mulVec b) := by
    rw [Matrix.mul_add, Matrix.mul_one, Matrix.add_mul, hS.1, hat_conj hS]
  have h2 : Sᵀ * ((1 : Mat3) - hat b) * S = 1 - hat (Sᵀ.mulVec b) := by
    rw [Matrix.mul_sub, Matrix.mul_one, Matrix.sub_mul, hS.1, hat_conj hS]
  unfold cay
  have expand : Sᵀ * ((1 + hat b) * inv3 (1 - hat b)) * S
      = (Sᵀ * (1 + hat b) * S) * (Sᵀ * inv3 (1 - hat b) * S) := by
    calc Sᵀ * ((1 + hat b) * inv3 (1 - hat b)) * S
        = Sᵀ * ((1 + hat b) * ((S * Sᵀ) * inv3 (1 - hat b))) * S := by
          rw [hS.mul_transpose, Matrix.one_mul]
      _ = (Sᵀ * (1 + hat b) * S) * (Sᵀ * inv3 (1 - hat b) * S) := by
          simp only [Matrix.mul_assoc]
  rw [expand, h1, inv3_conj hS hsub, h2]

/-- Every valid rotation away from the degenerate set is the Cayley image of
its own Gibbs vector (the rotation log-map is a genuine chart there). -/
theorem cayley_recon {R : Mat3} (hR : IsRot R) (hdeg : det3 (R + 1) ≠ 0) :
    R = cay (hat (vee (cayley R))) := by
  have hskew : (cayley R)ᵀ = -cayley R := cayley_skew hR hdeg
  have hhv : hat (vee (cayley R)) = cayley R := hat_vee_skew hskew
  rw [hhv]
  have hCR : cayley R * (R + 1) = R - 1 := by
    unfold cayley
    rw [Matrix.mul_assoc, inv3_mul _ hdeg, Matrix.mul_one]
  have hCR2 : cayley R * R = R - 1 - cayley R := by
    rw [Matrix.mul_add, Matrix.mul_one] at hCR
    exact eq_sub_of_add_eq hCR
  have h2 : (1 - cayley R) * R = 1 + cayley R := by
    rw [Matrix.sub_mul, Matrix.one_mul, hCR2]
    abel
  have hdetC : det3 (1 - cayley R) ≠ 0 := by
    rw [← hhv, det3_one_sub_hat]
    exact one_add_normSq3_ne_zero _
  have hRform : R = inv3 (1 - cayley R) * (1 + cayley R) := by
    calc R = (inv3 (1 - cayley R) * (1 - cayley R)) * R := by
          rw [inv3_mul _ hdetC, Matrix.one_mul]
      _ = inv3 (1 - cayley R) * ((1 - cayley R) * R) := by
          rw [Matrix.mul_assoc]
      _ = inv3 (1 - cayley R) * (1 + cayley R) := by rw [h2]
  rw [cay_comm_form _ hdetC]
  exact hRform

/-- Inner polynomial identity of the Gibbs composition law. -/
theorem gibbs_comp_poly (g₁ g₂ : Vec3) :
    (hat g₁ + hat g₂) * ((1 : Mat3) - vecMulVec g₂ g₁) * (1 - hat g₁)
      = ((1 : Mat3) - hat g₁) * hat (g₁ + g₂ + cross3 g₁ g₂) := by
  ext i j
  fin_cases i <;> fin_cases j <;>
    simp [Matrix.mul_apply, Matrix.vecMul, Fin.sum_univ_three,
      Matrix.vecMulVec_apply, Matrix.one_apply, Matrix.sub_apply,
      Matrix.add_apply, dotProduct, hat, cross3] <;> ring

/-- Exact composition law in the rotation chart: the Gibbs vector of the
product of two Cayley rotations is the Gibbs sum of their parameters. -/
theorem cayley_cay_cay (g₁ g₂ : Vec3)
    (hσ : (1 : ℚ) - dotProduct g₁ g₂ ≠ 0) :
    cayley (cay (hat g₁) * cay (hat g₂))
      = hat (((1 : ℚ) - dotProduct g₁ g₂)⁻¹ • (g₁ + g₂ + cross3 g₁ g₂)) := by
  set G := hat g₁ with hG
  set A := hat g₂ with hA
  have dG : det3 ((1 : Mat3) - G) ≠ 0 := by
    rw [hG, det3_one_sub_hat]; exact one_add_normSq3_ne_zero g₁
  have dA : det3 ((1 : Mat3) - A) ≠ 0 := by
    rw [hA, det3_one_sub_hat]; exact one_add_normSq3_ne_zero g₂
  have hGA : (1 : Mat3) + G * A
      = (1 - dotProduct g₁ g₂) • 1 + vecMulVec g₂ g₁ := by
    rw [hG, hA, hat_mul_hat]
    ext i j
    by_cases hij : i = j <;>
      simp [Matrix.add_apply, Matrix.sub_apply, Matrix.smul_apply,
        Matrix.one_apply, Matrix.vecMulVec_apply, dotProduct,
        Fin.sum_univ_three, hij] <;>
      ring
  have hdGA : det3 ((1 : Mat3) + G * A) ≠ 0 := by
    rw [hGA, det3_smul_one_add_vecMulVec]
    have h1 : 1 - dotProduct g₁ g₂ + dotProduct g₁ g₂ = 1 := by ring
    rw [h1, mul_one]
    exact pow_ne_zero 2 hσ
  have e1 : cay G * cay A = inv3 (1 - G) * ((1 + G) * (1 + A)) * inv3 (1 - A) := by
    rw [cay_comm_form G dG]
    unfold cay
    simp only [Matrix.mul_assoc]
  have eone : (1 : Mat3) = inv3 (1 - G) * ((1 - G) * (1 - A)) * inv3 (1 - A) := by
    calc (1 : Mat3) = (inv3 (1 - G) * (1 - G)) * ((1 - A) * inv3 (1 - A)) := by
          rw [inv3_mul _ dG, mul_inv3 _ dA, Matrix.one_mul]
      _ = inv3 (1 - G) * ((1 - G) * (1 - A)) * inv3 (1 - A) := by
          simp only [Matrix.mul_assoc]
  have hfactS : ∀ X Y : Mat3,
      inv3 (1 - G) * X * inv3 (1 - A) - inv3 (1 - G) * Y * inv3 (1 - A)
        = inv3 (1 - G) * (X - Y) * inv3 (1 - A) := by
    intro X Y; noncomm_ring
  have hfactA : ∀ X Y : Mat3,
      inv3 (1 - G) * X * inv3 (1 - A) + inv3 (1 - G) * Y * inv3 (1 - A)
        = inv3 (1 - G) * (X + Y) * inv3 (1 - A) := by
    intro X Y; noncomm_ring
  have e2 : cay G * cay A - 1
      = inv3 (1 - G) * ((2 : ℚ) • (G + A)) * inv3 (1 - A) := by
    have step : cay G * cay A - 1
        = inv3 (1 - G) * ((1 + G) * (1 + A)) * inv3 (1 - A)
          - inv3 (1 - G) * ((1 - G) * (1 - A)) * inv3 (1 - A) := by
      rw [e1]
      exact congrArg
        (fun X : Mat3 => inv3 (1 - G) * ((1 + G) * (1 + A)) * inv3 (1 - A) - X)
        eone
    have hinner : (1 + G) * (1 + A) - (1 - G) * (1 - A) = (2 : ℚ) • (G + A) := by
      have h2 : ((2 : ℚ) • (G + A)) = G + A + (G + A) := by
        rw [two_smul]
      rw [h2]; noncomm_ring
    rw [step, hfactS, hinner]
  have e3 : cay G * cay A + 1
      = inv3 (1 - G) * ((2 : ℚ) • (1 + G * A)) * inv3 (1 - A) := by
    have step : cay G * cay A + 1
        = inv3 (1 - G) * ((1 + G) * (1 + A)) * inv3 (1 - A)
          + inv3 (1 - G) * ((1 - G) * (1 - A)) * inv3 (1 - A) := by
      rw [e1]
      exact congrArg
        (fun X : Mat3 => inv3 (1 - G) * ((1 + G) * (1 + A)) * inv3 (1 - A) + X)
        eone
    have hinner : (1 + G) * (1 + A) + (1 - G) * (1 - A) = (2 : ℚ) • (1 + G * A) := by
      have h2 : ((2 : ℚ) • ((1 : Mat3) + G * A)) = 1 + G * A + (1 + G * A) := by
        rw [two_smul]
      rw [h2]; noncomm_ring
    rw [step, hfactA, hinner]
  have hinv23 : inv3 (cay G * cay A + 1)
      = (2 : ℚ)⁻¹ • ((1 - A) * inv3 (1 + G * A) * (1 - G)) := by
    have hdet : det3 (cay G * cay A + 1) ≠ 0 := by
      rw [e3, det3_mul, det3_mul, det3_smul, det3_inv3 dG, det3_inv3 dA]
      intro hz
      rcases mul_eq_zero.mp hz with hz1 | hz2
      · rcases mul_eq_zero.mp hz1 with hz3 | hz4
        · exact inv_ne_zero dG hz3
        · have h8 : (2 : ℚ) ^ 3 ≠ 0 := by norm_num
          rcases mul_eq_zero.mp hz4 with hz5 | hz6
          · exact h8 hz5
          · exact hdGA hz6
      · exact inv_ne_zero dA hz2
    refine (left_inv_eq_inv3 _ _ hdet ?_).symm
    rw [e3]
    have hcore : (1 - A) * inv3 (1 + G * A) * (1 - G)
        * (inv3 (1 - G) * (1 + G * A) * inv3 (1 - A)) = 1 := by
      calc (1 - A) * inv3 (1 + G * A) * (1 - G)
            * (inv3 (1 - G) * (1 + G * A) * inv3 (1 - A))
          = (1 - A) * inv3 (1 + G * A) * ((1 - G) * inv3 (1 - G))
              * ((1 + G * A) * inv3 (1 - A)) := by
            simp only [Matrix.mul_assoc]
        _ = (1 - A) * (inv3 (1 + G * A) * (1 + G * A)) * inv3 (1 - A) := by
            rw [mul_inv3 _ dG]
            simp only [Matrix.mul_one, Matrix.mul_assoc]
        _ = (1 - A) * inv3 (1 - A) := by
            rw [inv3_mul _ hdGA, Matrix.mul_one]
        _ = 1 := mul_inv3 _ dA
    calc (2 : ℚ)⁻¹ • ((1 - A) * inv3 (1 + G * A) * (1 - G))
          * (inv3 (1 - G) * ((2 : ℚ) • (1 + G * A)) * inv3 (1 - A))
        = ((2 : ℚ)⁻¹ * 2) • ((1 - A) * inv3 (1 + G * A) * (1 - G)
            * (inv3 (1 - G) * (1 + G * A) * inv3 (1 - A))) := by
          simp only [Matrix.smul_mul, Matrix.mul_smul, smul_smul]
          norm_num
      _ = 1 := by
          rw [hcore]
          norm_num
  have ecay : cayley (cay G * cay A)
      = inv3 (1 - G) * ((G + A) * inv3 (1 + G * A)) * (1 - G) := by
    have hcore2 : inv3 (1 - G) * (G + A) * inv3 (1 - A)
        * ((1 - A) * inv3 (1 + G * A) * (1 - G))
          = inv3 (1 - G) * ((G + A) * inv3 (1 + G * A)) * (1 - G) := by
      calc inv3 (1 - G) * (G + A) * inv3 (1 - A)
            * ((1 - A) * inv3 (1 + G * A) * (1 - G))
          = inv3 (1 - G) * (G + A) * (inv3 (1 - A) * (1 - A))
              * (inv3 (1 + G * A) * (1 - G)) := by
            simp only [Matrix.mul_assoc]
        _ = inv3 (1 - G) * ((G + A) * inv3 (1 + G * A)) * (1 - G) := by
            rw [inv3_mul _ dA]
            simp only [Matrix.mul_one, Matrix.mul_assoc]
    unfold cayley
    rw [e2, hinv23]
    calc inv3 (1 - G) * ((2 : ℚ) • (G + A)) * inv3 (1 - A)
          * ((2 : ℚ)⁻¹ • ((1 - A) * inv3 (1 + G * A) * (1 - G)))
        = ((2 : ℚ) * (2 : ℚ)⁻¹) • (inv3 (1 - G) * (G + A) * inv3 (1 - A)
            * ((1 - A) * inv3 (1 + G * A) * (1 - G))) := by
          simp only [Matrix.smul_mul, Matrix.mul_smul, smul_smul]
          norm_num
      _ = inv3 (1 - G) * ((G + A) * inv3 (1 + G * A)) * (1 - G) := by
          rw [hcore2]
          norm_num
  rw [ecay, hGA, inv3_sherman _ _ hσ]
  rw [hat_smul]
  have hpull : inv3 (1 - G) * ((G + A)
        * ((1 - dotProduct g₁ g₂)⁻¹ • (1 - vecMulVec g₂ g₁))) * (1 - G)
      = (1 - dotProduct g₁ g₂)⁻¹
          • (inv3 (1 - G) * ((G + A) * (1 - vecMulVec g₂ g₁)) * (1 - G)) := by
    simp only [Matrix.smul_mul, Matrix.mul_smul, smul_smul]
  rw [hpull]
  congr 1
  calc inv3 (1 - G) * ((G + A) * (1 - vecMulVec g₂ g₁)) * (1 - G)
      = inv3 (1 - G) * ((G + A) * (1 - vecMulVec g₂ g₁) * (1 - G)) := by
        simp only [Matrix.mul_assoc]
    _ = inv3 (1 - G) * ((1 - G) * hat (g₁ + g₂ + cross3 g₁ g₂)) := by
        rw [hG, hA, gibbs_comp_poly]
    _ = hat (g₁ + g₂ + cross3 g₁ g₂) := by
        rw [← Matrix.mul_assoc, inv3_mul _ dG, Matrix.one_mul]

theorem whitenV_add (sigma a b : Vec3) :
    whitenV sigma a + whitenV sigma b = whitenV sigma (a + b) := by
  funext i
  simp only [whitenV, Pi.add_apply]
  ring

theorem whitenV_smul (sigma : Vec3) (c : ℚ) (v : Vec3) :
    whitenV sigma (c • v) = c • whitenV sigma v := by
  funext i
  simp only [whitenV, Pi.smul_apply, smul_eq_mul]
  ring

theorem hat_neg (a : Vec3) : hat (-a) = -hat a := by
  have h := hat_smul (-1 : ℚ) a
  simp only [neg_one_smul] at h
  exact h

theorem hat_mulVec_antisymm (x y : Vec3) :
    (hat x).mulVec y = -((hat y).mulVec x) := by
  funext i
  fin_cases i <;>
    simp [hat, Matrix.mulVec, dotProduct, Fin.sum_univ_three] <;> ring

/-- Exact expansion of the Cayley rotation of the opposite Gibbs vector
about the identity: the first-order term is linear in the parameter and the
remainder is quadratic. -/
theorem cay_neg_hat_sub_one (a : Vec3) :
    ((1 : ℚ) + normSq3 a) • (cay (hat (-a)) - 1)
      = (-2 : ℚ) • hat a + (2 : ℚ) • (hat a * hat a) := by
  have hform : cay (hat (-a))
      = ((1 : ℚ) + normSq3 a)⁻¹
          • (((1 : Mat3) - hat a) * ((1 : Mat3) - hat a + vecMulVec a a)) := by
    unfold cay
    rw [hat_neg, sub_neg_eq_add, ← sub_eq_add_neg]
    rw [inv3_one_add_hat, Matrix.mul_smul]
  rw [hform, smul_sub, smul_smul,
    mul_inv_cancel₀ (one_add_normSq3_ne_zero a), one_smul]
  ext i j
  fin_cases i <;> fin_cases j <;>
    simp [Matrix.mul_apply, Fin.sum_univ_three, Matrix.vecMulVec_apply, hat,
      normSq3, Matrix.one_apply, Matrix.sub_apply, Matrix.add_apply,
      Matrix.smul_apply, smul_eq_mul] <;> ring

/-- Pinned first-order identity of the composition law, perturbation on the
right factor. -/
theorem gibbs_right (g a : Vec3) (hσ : (1 : ℚ) - dotProduct g a ≠ 0) :
    ((1 : ℚ) - dotProduct g a)
        • (vee (cayley (cay (hat g) * cay (hat a))) - g)
      = ((1 : Mat3) + hat g + vecMulVec g g).mulVec a := by
  rw [cayley_cay_cay g a hσ, vee_hat]
  rw [smul_sub, smul_smul, mul_inv_cancel₀ hσ, one_smul]
  funext i
  fin_cases i <;>
    simp [cross3, hat, Matrix.vecMulVec_apply, Matrix.mulVec, dotProduct,
      Fin.sum_univ_three, Matrix.one_apply, Matrix.add_apply,
      Matrix.vecHead, Matrix.vecTail, Function.comp,
      Pi.add_apply, Pi.smul_apply, Pi.sub_apply, smul_eq_mul] <;> ring

/-- Pinned first-order identity of the composition law, perturbation on the
left factor. -/
theorem gibbs_left (g b : Vec3) (hσ : (1 : ℚ) - dotProduct b g ≠ 0) :
    ((1 : ℚ) - dotProduct b g)
        • (vee (cayley (cay (hat b) * cay (hat g))) - g)
      = ((1 : Mat3) - hat g + vecMulVec g g).mulVec b := by
  rw [cayley_cay_cay b g hσ, vee_hat]
  rw [smul_sub, smul_smul, mul_inv_cancel₀ hσ, one_smul]
  funext i
  fin_cases i <;>
    simp [cross3, hat, Matrix.vecMulVec_apply, Matrix.mulVec, dotProduct,
      Fin.sum_univ_three, Matrix.one_apply, Matrix.add_apply,
      Matrix.vecHead, Matrix.vecTail, Function.comp,
      Pi.add_apply, Pi.smul_apply, Pi.sub_apply, smul_eq_mul] <;> ring

theorem rot_cancel {R : Mat3} (h : IsRot R) (w : Vec3) :
    Rᵀ.mulVec (R.mulVec w) = w := by
  rw [Matrix.mulVec_mulVec, h.1, Matrix.one_mulVec]

/-- A translational perturbation of any of the three poses leaves the
angular residual unchanged: next pose. -/
theorem gibbsRel_next_trans (P V N : Pose3) (δ : Vec3) :
    gibbsRel P V (N.retract δ) = gibbsRel P V N := by
  show vee (cayley ((P.comp V).Rᵀ * (N.R * 1))) = _
  rw [Matrix.mul_one]
  rfl

/-- Translational invariance of the angular residual: previous pose. -/
theorem gibbsRel_prev_trans (P V N : Pose3) (δ : Vec3) :
    gibbsRel (P.retract δ) V N = gibbsRel P V N := by
  show vee (cayley (((P.R * 1) * V.R)ᵀ * N.R)) = _
  rw [Matrix.mul_one]
  rfl

/-- Translational invariance of the angular residual: velocity. -/
theorem gibbsRel_vel_trans (P V N : Pose3) (δ : Vec3) :
    gibbsRel P (V.retract δ) N = gibbsRel P V N := by
  show vee (cayley ((P.R * (V.R * 1))ᵀ * N.R)) = _
  rw [Matrix.mul_one]
  rfl

/-- Exact translational derivative of the linear residual in the previous
pose. -/
theorem linRel_prev_trans (P V N : Pose3) (hP : P.IsValid) (δ : Vec3) :
    linRel (P.retract δ) V N - linRel P V N = (-V.Rᵀ).mulVec δ := by
  show (P.R * 1 * V.R)ᵀ.mulVec N.t
      - (P.R * 1 * V.R)ᵀ.mulVec ((P.R * 1).mulVec V.t + (P.R.mulVec δ + P.t))
      - ((P.R * V.R)ᵀ.mulVec N.t
        - (P.R * V.R)ᵀ.mulVec (P.R.mulVec V.t + P.t)) = _
  simp only [Matrix.mul_one, Matrix.transpose_mul, ← Matrix.mulVec_mulVec,
    Matrix.mulVec_add, Matrix.neg_mulVec, rot_cancel hP]
  abel

/-- Exact translational derivative of the linear residual in the
velocity. -/
theorem linRel_vel_trans (P V N : Pose3) (hP : P.IsValid) (hV : V.IsValid)
    (δ : Vec3) :
    linRel P (V.retract δ) N - linRel P V N = (-(1 : Mat3)).mulVec δ := by
  show (P.R * (V.R * 1))ᵀ.mulVec N.t
      - (P.R * (V.R * 1))ᵀ.mulVec (P.R.mulVec (V.R.mulVec δ + V.t) + P.t)
      - ((P.R * V.R)ᵀ.mulVec N.t
        - (P.R * V.R)ᵀ.mulVec (P.R.mulVec V.t + P.t)) = _
  simp only [Matrix.mul_one, Matrix.transpose_mul, ← Matrix.mulVec_mulVec,
    Matrix.mulVec_add, Matrix.neg_mulVec, Matrix.one_mulVec,
    rot_cancel hP, rot_cancel hV]
  abel

/-- Exact translational derivative of the linear residual in the next
pose. -/
theorem linRel_next_trans (P V N : Pose3) (δ : Vec3) :
    linRel P V (N.retract δ) - linRel P V N
      = ((P.comp V).Rᵀ * N.R).mulVec δ := by
  show (P.comp V).Rᵀ.mulVec (N.R.mulVec δ + N.t)
      - (P.comp V).Rᵀ.mulVec (P.comp V).t
      - ((P.comp V).Rᵀ.mulVec N.t - (P.comp V).Rᵀ.mulVec (P.comp V).t) = _
  simp only [Matrix.mulVec_add, ← Matrix.mulVec_mulVec]
  abel

/-- A rotational perturbation of the next pose leaves the linear residual
unchanged. -/
theorem linRel_next_rot (P V N : Pose3) (a : Vec3) :
    linRel P V (N.retractRot a) = linRel P V N := by
  show (P.comp V).Rᵀ.mulVec (N.R.mulVec 0 + N.t)
      - (P.comp V).Rᵀ.mulVec (P.comp V).t = _
  rw [Matrix.mulVec_zero, zero_add]
  rfl

/-- Pinned rotational derivative of the angular residual in the next
pose. -/
theorem gibbsRel_next_deriv (P V N : Pose3) (hP : P.IsValid) (hV : V.IsValid)
    (hN : N.IsValid) (hdeg : det3 ((P.comp V).Rᵀ * N.R + 1) ≠ 0) (a : Vec3)
    (hσ : (1 : ℚ) - dotProduct (gibbsRel P V N) a ≠ 0) :
    ((1 : ℚ) - dotProduct (gibbsRel P V N) a)
        • (gibbsRel P V (N.retractRot a) - gibbsRel P V N)
      = ((1 : Mat3) + hat (gibbsRel P V N)
          + vecMulVec (gibbsRel P V N) (gibbsRel P V N)).mulVec a := by
  have hrecon : (P.comp V).Rᵀ * N.R = cay (hat (gibbsRel P V N)) :=
    cayley_recon (IsRot.mul (IsRot.transpose (IsRot.mul hP hV)) hN) hdeg
  have hgr : gibbsRel P V (N.retractRot a)
      = vee (cayley (cay (hat (gibbsRel P V N)) * cay (hat a))) := by
    have hR : (P.comp V).Rᵀ * (N.retractRot a).R
        = cay (hat (gibbsRel P V N)) * cay (hat a) := by
      show (P.comp V).Rᵀ * (N.R * cay (hat a)) = _
      rw [← Matrix.mul_assoc, hrecon]
    show vee (cayley ((P.comp V).Rᵀ * (N.retractRot a).R)) = _
    rw [hR]
  rw [hgr]
  exact gibbs_right (gibbsRel P V N) a hσ

/-- Pinned rotational derivative of the angular residual in the
velocity. -/
theorem gibbsRel_vel_deriv (P V N : Pose3) (hP : P.IsValid) (hV : V.IsValid)
    (hN : N.IsValid) (hdeg : det3 ((P.comp V).Rᵀ * N.R + 1) ≠ 0) (a : Vec3)
    (hσ : (1 : ℚ) + dotProduct a (gibbsRel P V N) ≠ 0) :
    ((1 : ℚ) + dotProduct a (gibbsRel P V N))
        • (gibbsRel P (V.retractRot a) N - gibbsRel P V N)
      = (-((1 : Mat3) - hat (gibbsRel P V N)
            + vecMulVec (gibbsRel P V N) (gibbsRel P V N))).mulVec a := by
  have hrecon : (P.comp V).Rᵀ * N.R = cay (hat (gibbsRel P V N)) :=
    cayley_recon (IsRot.mul (IsRot.transpose (IsRot.mul hP hV)) hN) hdeg
  have hσT : (1 : ℚ) - dotProduct (-a) (gibbsRel P V N) ≠ 0 := by
    rw [Matrix.neg_dotProduct, sub_neg_eq_add]
    exact hσ
  have hgr : gibbsRel P (V.retractRot a) N
      = vee (cayley (cay (hat (-a)) * cay (hat (gibbsRel P V N)))) := by
    have hR : (P.comp (V.retractRot a)).Rᵀ * N.R
        = cay (hat (-a)) * cay (hat (gibbsRel P V N)) := by
      show (P.R * (V.R * cay (hat a)))ᵀ * N.R = _
      calc (P.R * (V.R * cay (hat a)))ᵀ * N.R
          = (cay (hat a))ᵀ * (V.Rᵀ * (P.Rᵀ * N.R)) := by
            simp only [Matrix.transpose_mul, Matrix.mul_assoc]
        _ = cay (hat (-a)) * cay (hat (gibbsRel P V N)) := by
            rw [cay_hat_transpose]
            congr 1
            calc V.Rᵀ * (P.Rᵀ * N.R) = (P.R * V.R)ᵀ * N.R := by
                  simp only [Matrix.transpose_mul, Matrix.mul_assoc]
              _ = cay (hat (gibbsRel P V N)) := hrecon
    show vee (cayley ((P.comp (V.retractRot a)).Rᵀ * N.R)) = _
    rw [hR]
  have key := gibbs_left (gibbsRel P V N) (-a) hσT
  rw [Matrix.neg_dotProduct, sub_neg_eq_add, Matrix.mulVec_neg] at key
  rw [hgr, key, Matrix.neg_mulVec]

/-- Pinned rotational derivative of the angular residual in the previous
pose. -/
theorem gibbsRel_prev_deriv (P V N : Pose3) (hP : P.IsValid) (hV : V.IsValid)
    (hN : N.IsValid) (hdeg : det3 ((P.comp V).Rᵀ * N.R + 1) ≠ 0) (a : Vec3)
    (hσ : (1 : ℚ) + dotProduct (V.Rᵀ.mulVec a) (gibbsRel P V N) ≠ 0) :
    ((1 : ℚ) + dotProduct (V.Rᵀ.mulVec a) (gibbsRel P V N))
        • (gibbsRel (P.retractRot a) V N - gibbsRel P V N)
      = (-(((1 : Mat3) - hat (gibbsRel P V N)
            + vecMulVec (gibbsRel P V N) (gibbsRel P V N)) * V.Rᵀ)).mulVec a := by
  have hrecon : (P.comp V).Rᵀ * N.R = cay (hat (gibbsRel P V N)) :=
    cayley_recon (IsRot.mul (IsRot.transpose (IsRot.mul hP hV)) hN) hdeg
  have hσT : (1 : ℚ) - dotProduct (V.Rᵀ.mulVec (-a)) (gibbsRel P V N) ≠ 0 := by
    rw [Matrix.mulVec_neg, Matrix.neg_dotProduct, sub_neg_eq_add]
    exact hσ
  have hgr : gibbsRel (P.retractRot a) V N
      = vee (cayley (cay (hat (V.Rᵀ.mulVec (-a)))
          * cay (hat (gibbsRel P V N)))) := by
    have hR : ((P.retractRot a).comp V).Rᵀ * N.R
        = cay (hat (V.Rᵀ.mulVec (-a))) * cay (hat (gibbsRel P V N)) := by
      show ((P.R * cay (hat a)) * V.R)ᵀ * N.R = _
      have hins : P.Rᵀ * N.R = V.R * (V.Rᵀ * (P.Rᵀ * N.R)) := by
        rw [← Matrix.mul_assoc, IsRot.mul_transpose hV, Matrix.one_mul]
      calc ((P.R * cay (hat a)) * V.R)ᵀ * N.R
          = V.Rᵀ * ((cay (hat a))ᵀ * (P.Rᵀ * N.R)) := by
            simp only [Matrix.transpose_mul, Matrix.mul_assoc]
        _ = V.Rᵀ * (cay (hat (-a)) * (V.R * (V.Rᵀ * (P.Rᵀ * N.R)))) := by
            rw [cay_hat_transpose, ← hins]
        _ = (V.Rᵀ * cay (hat (-a)) * V.R) * (V.Rᵀ * (P.Rᵀ * N.R)) := by
            simp only [Matrix.mul_assoc]
        _ = cay (hat (V.Rᵀ.mulVec (-a))) * cay (hat (gibbsRel P V N)) := by
            rw [cay_conj hV]
            congr 1
            calc V.Rᵀ * (P.Rᵀ * N.R) = (P.R * V.R)ᵀ * N.R := by
                  simp only [Matrix.transpose_mul, Matrix.mul_assoc]
              _ = cay (hat (gibbsRel P V N)) := hrecon
    show vee (cayley (((P.retractRot a).comp V).Rᵀ * N.R)) = _
    rw [hR]
  rw [Matrix.mulVec_neg] at hgr
  have key := gibbs_left (gibbsRel P V N) (V.Rᵀ.mulVec (-a)) hσT
  rw [Matrix.mulVec_neg, Matrix.neg_dotProduct, sub_neg_eq_add,
    Matrix.mulVec_neg, Matrix.mulVec_mulVec] at key
  rw [hgr, key, Matrix.neg_mulVec]

/-- Pinned rotational derivative of the linear residual in the velocity:
the first-order term is the analytic Jacobian column, the remainder is
quadratic in the perturbation. -/
theorem linRel_vel_rot (P V N : Pose3) (hP : P.IsValid) (a : Vec3) :
    ((1 : ℚ) + normSq3 a) • (linRel P (V.retractRot a) N - linRel P V N)
      = (2 : ℚ) • (hat (linRel P V N)).mulVec a
        + (2 : ℚ) • (hat a).mulVec ((hat a).mulVec (linRel P V N)) := by
  have hform : linRel P (V.retractRot a) N
      = (cay (hat (-a))).mulVec (linRel P V N) := by
    show (P.R * (V.R * cay (hat a)))ᵀ.mulVec N.t
        - (P.R * (V.R * cay (hat a)))ᵀ.mulVec
            (P.R.mulVec (V.R.mulVec 0 + V.t) + P.t) = _
    simp only [Matrix.transpose_mul, cay_hat_transpose, ← Matrix.mulVec_mulVec,
      Matrix.mulVec_add, Matrix.mulVec_sub, Matrix.mulVec_zero, zero_add,
      linRel, Pose3.comp, rot_cancel hP]
  rw [hform]
  have hdiff : (cay (hat (-a))).mulVec (linRel P V N) - linRel P V N
      = (cay (hat (-a)) - 1).mulVec (linRel P V N) := by
    rw [Matrix.sub_mulVec, Matrix.one_mulVec]
  rw [hdiff, ← Matrix.smul_mulVec_assoc, cay_neg_hat_sub_one]
  rw [Matrix.add_mulVec, Matrix.smul_mulVec_assoc, Matrix.smul_mulVec_assoc,
    ← Matrix.mulVec_mulVec]
  congr 1
  rw [hat_mulVec_antisymm a (linRel P V N), smul_neg, neg_smul, neg_neg]

/-- Pinned rotational derivative of the linear residual in the previous
pose: the first-order term is the analytic Jacobian column, the remainder
is quadratic in the perturbation. -/
theorem linRel_prev_rot (P V N : Pose3) (hP : P.IsValid) (a : Vec3) :
    ((1 : ℚ) + normSq3 a) • (linRel (P.retractRot a) V N - linRel P V N)
      = (2 : ℚ) • V.Rᵀ.mulVec ((hat (uRel P N)).mulVec a)
        + (2 : ℚ) • V.Rᵀ.mulVec ((hat a).mulVec ((hat a).mulVec (uRel P N))) := by
  have hcc : ∀ w : Vec3,
      (cay (hat (-a))).mulVec ((cay (hat a)).mulVec w) = w := by
    intro w
    rw [Matrix.mulVec_mulVec, cay_neg_mul_cay, Matrix.one_mulVec]
  have hlin0 : linRel P V N = V.Rᵀ.mulVec (uRel P N) - V.Rᵀ.mulVec V.t := by
    show (P.R * V.R)ᵀ.mulVec N.t
        - (P.R * V.R)ᵀ.mulVec (P.R.mulVec V.t + P.t) = _
    simp only [Matrix.transpose_mul, ← Matrix.mulVec_mulVec, Matrix.mulVec_add,
      Matrix.mulVec_sub, uRel, rot_cancel hP]
    abel
  have hlin1 : linRel (P.retractRot a) V N
      = V.Rᵀ.mulVec ((cay (hat (-a))).mulVec (uRel P N))
        - V.Rᵀ.mulVec V.t := by
    show ((P.R * cay (hat a)) * V.R)ᵀ.mulVec N.t
        - ((P.R * cay (hat a)) * V.R)ᵀ.mulVec
            ((P.R * cay (hat a)).mulVec V.t + (P.R.mulVec 0 + P.t)) = _
    simp only [Matrix.transpose_mul, cay_hat_transpose, ← Matrix.mulVec_mulVec,
      Matrix.mulVec_add, Matrix.mulVec_sub, Matrix.mulVec_zero, zero_add,
      uRel, rot_cancel hP, hcc]
    abel
  rw [hlin1, hlin0]
  have hdiff : V.Rᵀ.mulVec ((cay (hat (-a))).mulVec (uRel P N))
      - V.Rᵀ.mulVec V.t
      - (V.Rᵀ.mulVec (uRel P N) - V.Rᵀ.mulVec V.t)
      = V.Rᵀ.mulVec ((cay (hat (-a)) - 1).mulVec (uRel P N)) := by
    simp only [Matrix.sub_mulVec, Matrix.one_mulVec, Matrix.mulVec_sub]
    abel
  rw [hdiff, ← Matrix.mulVec_smul, ← Matrix.smul_mulVec_assoc,
    cay_neg_hat_sub_one]
  rw [Matrix.add_mulVec, Matrix.smul_mulVec_assoc, Matrix.smul_mulVec_assoc,
    ← Matrix.mulVec_mulVec, Matrix.mulVec_add, Matrix.mulVec_smul,
    Matrix.mulVec_smul]
  congr 1
  rw [hat_mulVec_antisymm a (uRel P N), Matrix.mulVec_neg, smul_neg,
    neg_smul, neg_neg]

/-- Claim C8: `StablePoseFactor::evaluateError` computes the whitened
log-map discrepancy between the velocity-propagated previous pose and the
next pose, vanishes exactly on consistent triples, and returns analytic
Jacobians for all three pose inputs that are exact derivatives of the
residual in every tangent direction: along each translational perturbation
direction the residual change equals the corresponding Jacobian column
exactly, and along each rotational perturbation direction the pinned
first-order identity holds exactly (the Jacobian column is the derivative,
with an explicitly quadratic remainder), so numerically-differenced
Jacobians match the analytic ones to first order in the step. -/
theorem stablePoseFactor_evaluateError_spec (f : StablePoseFactor)
    (P V N : Pose3) (hP : P.IsValid) (hV : V.IsValid) (hN : N.IsValid)
    (hdeg : det3 ((P.comp V).Rᵀ * N.R + 1) ≠ 0) :
    ((f.evaluateError P V N).1
        = whitenT f.noiseRotSigmas f.noiseTransSigmas
            (Pose3.logmap ((P.comp V).inverse.comp N))
      ∧ (f.evaluateError P V N).2 = f.jacobians P V N)
    ∧ (N = P.comp V → (f.evaluateError P V N).1 = 0)
    ∧ (∀ δ : Vec3,
        (f.evaluateError (P.retract δ) V N).1.ang
            = (f.evaluateError P V N).1.ang
          ∧ (f.evaluateError (P.retract δ) V N).1.lin
              - (f.evaluateError P V N).1.lin
            = (f.jacobians P V N).1.linTrans.mulVec δ)
    ∧ (∀ δ : Vec3,
        (f.evaluateError P (V.retract δ) N).1.ang
            = (f.evaluateError P V N).1.ang
          ∧ (f.evaluateError P (V.retract δ) N).1.lin
              - (f.evaluateError P V N).1.lin
            = (f.jacobians P V N).2.1.linTrans.mulVec δ)
    ∧ (∀ δ : Vec3,
        (f.evaluateError P V (N.retract δ)).1.ang
            = (f.evaluateError P V N).1.ang
          ∧ (f.evaluateError P V (N.retract δ)).1.lin
              - (f.evaluateError P V N).1.lin
            = (f.jacobians P V N).2.2.linTrans.mulVec δ)
    ∧ ((∀ a : Vec3,
          (1 : ℚ) + dotProduct (V.Rᵀ.mulVec a) (gibbsRel P V N) ≠ 0 →
          ((1 : ℚ) + dotProduct (V.Rᵀ.mulVec a) (gibbsRel P V N))
              • ((f.evaluateError (P.retractRot a) V N).1.ang
                  - (f.evaluateError P V N).1.ang)
            = (f.jacobians P V N).1.angRot.mulVec a)
        ∧ (∀ a : Vec3,
          ((1 : ℚ) + normSq3 a)
              • ((f.evaluateError (P.retractRot a) V N).1.lin
                  - (f.evaluateError P V N).1.lin)
            = (f.jacobians P V N).1.linRot.mulVec a
              + (2 : ℚ) • whitenV f.noiseTransSigmas
                  (V.Rᵀ.mulVec ((hat a).mulVec ((hat a).mulVec (uRel P N))))))
    ∧ ((∀ a : Vec3,
          (1 : ℚ) + dotProduct a (gibbsRel P V N) ≠ 0 →
          ((1 : ℚ) + dotProduct a (gibbsRel P V N))
              • ((f.evaluateError P (V.retractRot a) N).1.ang
                  - (f.evaluateError P V N).1.ang)
            = (f.jacobians P V N).2.1.angRot.mulVec a)
        ∧ (∀ a : Vec3,
          ((1 : ℚ) + normSq3 a)
              • ((f.evaluateError P (V.retractRot a) N).1.lin
                  - (f.evaluateError P V N).1.lin)
            = (f.jacobians P V N).2.1.linRot.mulVec a
              + (2 : ℚ) • whitenV f.noiseTransSigmas
                  ((hat a).mulVec ((hat a).mulVec (linRel P V N)))))
    ∧ ((∀ a : Vec3,
          (1 : ℚ) - dotProduct (gibbsRel P V N) a ≠ 0 →
          ((1 : ℚ) - dotProduct (gibbsRel P V N) a)
              • ((f.evaluateError P V (N.retractRot a)).1.ang
                  - (f.evaluateError P V N).1.ang)
            = (f.jacobians P V N).2.2.angRot.mulVec a)
        ∧ (∀ a : Vec3,
          (f.evaluateError P V (N.retractRot a)).1.lin
            = (f.evaluateError P V N).1.lin)) := by
  have hang : ∀ P' V' N' : Pose3, (f.evaluateError P' V' N').1.ang
      = whitenV f.noiseRotSigmas (gibbsRel P' V' N') := fun _ _ _ => rfl
  have hlin : ∀ P' V' N' : Pose3, (f.evaluateError P' V' N').1.lin
      = whitenV f.noiseTransSigmas (linRel P' V' N') := by
    intro P' V' N'
    show whitenV f.noiseTransSigmas ((P'.comp V').Rᵀ.mulVec N'.t
        + -((P'.comp V').Rᵀ.mulVec (P'.comp V').t)) = _
    rw [← sub_eq_add_neg]
    rfl
  refine ⟨⟨rfl, rfl⟩, ?_, ?_, ?_, ?_, ⟨?_, ?_⟩, ⟨?_, ?_⟩, ⟨?_, ?_⟩⟩
  · intro hNe
    subst hNe
    have h1 : (P.comp V).Rᵀ * (P.comp V).R = 1 := (IsRot.mul hP hV).1
    show whitenT f.noiseRotSigmas f.noiseTransSigmas
        ⟨vee (cayley ((P.comp V).Rᵀ * (P.comp V).R)),
          (P.comp V).Rᵀ.mulVec (P.comp V).t
            + -((P.comp V).Rᵀ.mulVec (P.comp V).t)⟩ = 0
    rw [h1, add_neg_cancel]
    have hc : cayley (1 : Mat3) = 0 := by
      unfold cayley
      rw [sub_self, Matrix.zero_mul]
    rw [hc]
    have hv0 : vee (0 : Mat3) = (0 : Vec3) := by
      funext i
      fin_cases i <;> simp [vee]
    rw [hv0]
    exact whitenT_zero _ _
  · intro δ
    refine ⟨?_, ?_⟩
    · rw [hang, hang, gibbsRel_prev_trans]
    · rw [hlin, hlin, whitenV_sub, linRel_prev_trans P V N hP δ,
        ← whitenRows_mulVec]
      rfl
  · intro δ
    refine ⟨?_, ?_⟩
    · rw [hang, hang, gibbsRel_vel_trans]
    · rw [hlin, hlin, whitenV_sub, linRel_vel_trans P V N hP hV δ,
        ← whitenRows_mulVec]
      rfl
  · intro δ
    refine ⟨?_, ?_⟩
    · rw [hang, hang, gibbsRel_next_trans]
    · rw [hlin, hlin, whitenV_sub, linRel_next_trans P V N δ,
        ← whitenRows_mulVec]
      rfl
  · intro a hσ
    rw [hang, hang, whitenV_sub, ← whitenV_smul,
      gibbsRel_prev_deriv P V N hP hV hN hdeg a hσ, ← whitenRows_mulVec]
    rfl
  · intro a
    rw [hlin, hlin, whitenV_sub, ← whitenV_smul, linRel_prev_rot P V N hP a,
      ← whitenV_add, whitenV_smul, whitenV_smul]
    congr 1
    show (2 : ℚ) • whitenV f.noiseTransSigmas
        (V.Rᵀ.mulVec ((hat (uRel P N)).mulVec a))
      = (whitenRows f.noiseTransSigmas
          ((2 : ℚ) • (V.Rᵀ * hat (uRel P N)))).mulVec a
    rw [whitenRows_mulVec, Matrix.smul_mulVec_assoc, ← Matrix.mulVec_mulVec,
      whitenV_smul]
  · intro a hσ
    rw [hang, hang, whitenV_sub, ← whitenV_smul,
      gibbsRel_vel_deriv P V N hP hV hN hdeg a hσ, ← whitenRows_mulVec]
    rfl
  · intro a
    rw [hlin, hlin, whitenV_sub, ← whitenV_smul, linRel_vel_rot P V N hP a,
      ← whitenV_add, whitenV_smul, whitenV_smul]
    congr 1
    show (2 : ℚ) • whitenV f.noiseTransSigmas ((hat (linRel P V N)).mulVec a)
      = (whitenRows f.noiseTransSigmas
          ((2 : ℚ) • hat (linRel P V N))).mulVec a
    rw [whitenRows_mulVec, Matrix.smul_mulVec_assoc, whitenV_smul]
  · intro a hσ
    rw [hang, hang, whitenV_sub, ← whitenV_smul,
      gibbsRel_next_deriv P V N hP hV hN hdeg a hσ, ← whitenRows_mulVec]
    rfl
  · intro a
    rw [hlin, hlin, linRel_next_rot]

/-- Closed witness for claim C8 at the concrete stability factor and an
identity-rotation pose triple: zero residual on the consistent triple, an
exact translational Jacobian column, and an exact pinned rotational
derivative of the angular residual. -/
theorem stablePoseFactor_evaluateError_spec_witness :
    ((sp0.evaluateError prevP velP (prevP.comp velP)).1 = 0)
    ∧ ((sp0.evaluateError (prevP.retract ![1, 0, 0]) velP
          (prevP.comp velP)).1.lin
        - (sp0.evaluateError prevP velP (prevP.comp velP)).1.lin
        = (sp0.jacobians prevP velP (prevP.comp velP)).1.linTrans.mulVec
            ![1, 0, 0])
    ∧ (((1 : ℚ) + dotProduct (velP.Rᵀ.mulVec ![1, 0, 0])
          (gibbsRel prevP velP (prevP.comp velP)))
        • ((sp0.evaluateError (prevP.retractRot ![1, 0, 0]) velP
              (prevP.comp velP)).1.ang
            - (sp0.evaluateError prevP velP (prevP.comp velP)).1.ang)
        = (sp0.jacobians prevP velP (prevP.comp velP)).1.angRot.mulVec
            ![1, 0, 0]) := by
  have hP : prevP.IsValid := IsRot.one
  have hV : velP.IsValid := IsRot.one
  have hN : (prevP.comp velP).IsValid := IsRot.mul IsRot.one IsRot.one
  have hrel : (prevP.comp velP).Rᵀ * (prevP.comp velP).R = 1 :=
    (IsRot.mul IsRot.one IsRot.one).1
  have h8 : det3 ((1 : Mat3) + 1) = 8 := by
    rw [det3_eq_det,
      show ((1 : Mat3) + 1) = (2 : ℚ) • (1 : Mat3) from by rw [two_smul],
      Matrix.det_smul, Matrix.det_one]
    norm_num [Fintype.card_fin]
  have hdeg : det3 ((prevP.comp velP).Rᵀ * (prevP.comp velP).R + 1) ≠ 0 := by
    rw [hrel, h8]
    norm_num
  obtain ⟨-, hzero, htransP, -, -, ⟨hangP, -⟩, -, -⟩ :=
    stablePoseFactor_evaluateError_spec sp0 prevP velP (prevP.comp velP)
      hP hV hN hdeg
  have hg0 : gibbsRel prevP velP (prevP.comp velP) = 0 := by
    show vee (cayley ((prevP.comp velP).Rᵀ * (prevP.comp velP).R)) = 0
    rw [hrel,
      show cayley (1 : Mat3) = 0 from by
        unfold cayley
        rw [sub_self, Matrix.zero_mul]]
    funext i
    fin_cases i <;> simp [vee]
  refine ⟨hzero rfl, (htransP ![1, 0, 0]).2, hangP ![1, 0, 0] ?_⟩
  rw [hg0, Matrix.dotProduct_zero]
  norm_num

end LioSegmot

